import Mathlib

/-!
Verification of the skill-extraction and hybrid-ranking core of the
resume-based job-suggestion system.

Shallow embedding of:
* `utils/enhanced_extractor.py` — `normalize_text`, alias substitution with
  `(?<!\w)alias(?!\w)`, taxonomy matching with `\b tok₁ \s+ … \s+ tokₖ \b`,
  `extract_resume_skills`;
* `lambda_handler.py` — `extract_skills_from_text`, whose taxonomy patterns
  are `(?<!\w)skill(?!\w)` with the skill string taken literally;
* `utils/ranker.py` — `cos_sim_safe`, `compute_final_score`;
* the scoring helpers inlined in `streamlit_app.py` — the keyword overlap,
  the recency banding, and the per-job missing-skill derivation.

Texts are modelled as `List Char`; the regex character classes `\w` and `\s`
are modelled over the ASCII alphabet the taxonomy and aliases live in.
Floating-point quantities are modelled as exact rationals (reals for the
cosine similarity, whose norm needs a square root).
-/

namespace Resume

/-- ASCII model of the regex class `\w`: letters, digits, underscore. -/
def isWordChar (c : Char) : Bool := c.isAlphanum || c == '_'

/-- ASCII model of the regex class `\s`. -/
def isSpaceChar (c : Char) : Bool :=
  c == ' ' || c == '\t' || c == '\n' || c == '\r' || c == '\x0b' || c == '\x0c'

/-- Wordness of an optional character; a position outside the text is non-word. -/
def wordOpt : Option Char → Bool
  | none => false
  | some c => isWordChar c

/-- The regex assertion `\b` holds between two (optional) characters iff their
wordness differs. -/
def boundaryB (a b : Option Char) : Bool := wordOpt a != wordOpt b

/-- ASCII lower-casing, as `str.lower` acts on the alphabet of the taxonomy. -/
def lowerChar (c : Char) : Char :=
  if 'A' ≤ c ∧ c ≤ 'Z' then Char.ofNat (c.toNat + 32) else c

/-- One character of `normalize_text`: lower-case, then replace hyphen and
underscore by a space (dots are kept). -/
def normChar (c : Char) : Char :=
  let c := lowerChar c
  if c == '-' || c == '_' then ' ' else c

def normalizeL (s : List Char) : List Char := s.map normChar

/-- `normalize_text` from `enhanced_extractor.py` / `lambda_handler.py`. -/
def normalize_text (s : String) : String := String.mk (normalizeL s.data)

/-- The last character of `l`, or `prev` when `l` is empty: the character that
precedes the current scan position once `l` has been consumed after `prev`. -/
def lastO (prev : Option Char) (l : List Char) : Option Char :=
  match l.getLast? with
  | some c => some c
  | none => prev

/-- Positional test for the alias pattern `(?<!\w)alias(?!\w)`; `prev` is the
character immediately before the current position in the original text. The
`!a.isEmpty` conjunct only totalises the scanner (every alias is nonempty). -/
def aliasMatchAt (a : List Char) (prev : Option Char) (s : List Char) : Bool :=
  !a.isEmpty && !wordOpt prev && a.isPrefixOf s &&
    !wordOpt (List.drop a.length s).head?

/-- After replacing a match, the scan continues behind it; the character before
the continuation is the last character of the matched alias occurrence. -/
def pushLast (a : List Char) (prev : Option Char) : Option Char :=
  match a.getLast? with
  | some c => some c
  | none => prev

/-- Fuel-indexed scanner for `re.sub(rf"(?<!\w){alias}(?!\w)", canonical, text)`:
matches are located in the original text, left to right and non-overlapping,
and each is replaced by the canonical form. The fuel only makes the recursion
structural; `substGo` supplies enough fuel for the scan to finish. -/
def substF (a c : List Char) : Nat → Option Char → List Char → List Char
  | 0, _, s => s
  | _ + 1, _, [] => []
  | fuel + 1, prev, x :: xs =>
    if aliasMatchAt a prev (x :: xs) then
      c ++ substF a c fuel (pushLast a prev) (List.drop a.length (x :: xs))
    else
      x :: substF a c fuel (some x) xs

def substGo (a c : List Char) (prev : Option Char) (s : List Char) : List Char :=
  substF a c s.length prev s

/-- `re.sub` of one alias over the whole text. -/
def substAlias (a c s : List Char) : List Char := substGo a c none s

/-- `str.split()`: split on whitespace runs, dropping empty pieces. -/
def splitAux (acc : List Char) : List Char → List (List Char)
  | [] => if acc.isEmpty then [] else [acc.reverse]
  | c :: cs =>
    if isSpaceChar c then
      if acc.isEmpty then splitAux [] cs else acc.reverse :: splitAux [] cs
    else
      splitAux (c :: acc) cs

def splitToks (l : List Char) : List (List Char) := splitAux [] l

/-- Match the token list of a taxonomy phrase at the current position: each
token literally, consecutive tokens separated by a greedy `\s+` run. Returns
the remainder of the text after the matched region. -/
def matchToks : List (List Char) → List Char → Option (List Char)
  | [], s => some s
  | t :: ts, s =>
    if t.isPrefixOf s then
      match ts with
      | [] => some (List.drop t.length s)
      | _ :: _ =>
        match List.drop t.length s with
        | [] => none
        | c :: cs =>
          if isSpaceChar c then matchToks ts (cs.dropWhile isSpaceChar) else none
    else none

/-- Last character of the last token. -/
def toksLast (toks : List (List Char)) : Option Char :=
  match toks.getLast? with
  | some t => t.getLast?
  | none => none

/-- Test `\b tok₁ \s+ … \s+ tokₖ \b` anchored at the current position; `prev`
is the character just before the position. -/
def matchHere (toks : List (List Char)) (prev : Option Char) (s : List Char) : Bool :=
  match matchToks toks s with
  | none => false
  | some rest => boundaryB prev s.head? && boundaryB (toksLast toks) rest.head?

/-- `re.search` of the anchored taxonomy pattern over the text. -/
def searchFrom (toks : List (List Char)) : Option Char → List Char → Bool
  | prev, [] => matchHere toks prev []
  | prev, x :: xs => matchHere toks prev (x :: xs) || searchFrom toks (some x) xs

def reSearch (toks : List (List Char)) (text : List Char) : Bool :=
  searchFrom toks none text

/-- Positional test for `(?<!\w)pat(?!\w)` with a literal pattern string. -/
def lookMatchAt (pat : List Char) (prev : Option Char) (s : List Char) : Bool :=
  !wordOpt prev && pat.isPrefixOf s && !wordOpt (List.drop pat.length s).head?

def searchLAFrom (pat : List Char) : Option Char → List Char → Bool
  | prev, [] => lookMatchAt pat prev []
  | prev, x :: xs => lookMatchAt pat prev (x :: xs) || searchLAFrom pat (some x) xs

/-- `re.search` of the lookaround-anchored literal pattern over the text. -/
def searchLA (pat : List Char) (text : List Char) : Bool :=
  searchLAFrom pat none text

/-- Lexicographic comparison of character lists by code point, the order
Python's `sorted` uses on strings. -/
def lexLe : List Char → List Char → Bool
  | [], _ => true
  | _ :: _, [] => false
  | a :: as, b :: bs =>
    if a < b then true
    else if b < a then false
    else lexLe as bs

/-- Lexicographic order on strings, as `sorted` compares them. -/
def pyLe (a b : String) : Bool := lexLe a.data b.data

/-- The master skill taxonomy, shared verbatim by `enhanced_extractor.py` and
`lambda_handler.py` (a Python set; order is irrelevant to the sorted output). -/
def SKILL_TAXONOMY : List String :=
  ["python", "java", "javascript", "typescript",
   "c", "c++", "c#", "go",
   "ruby", "php", "swift", "kotlin", "scala", "r",
   "html", "css", "sass", "bootstrap", "tailwind css",
   "react", "angular", "vue.js", "next.js", "node.js",
   "express.js", "django", "flask", "spring boot",
   "rest api", "graphql", "microservices",
   "git", "github", "gitlab", "bitbucket",
   "aws", "azure", "gcp",
   "docker", "kubernetes", "terraform",
   "jenkins", "ci cd", "ansible",
   "linux", "bash", "shell scripting",
   "data analysis", "data science", "machine learning",
   "deep learning", "artificial intelligence",
   "nlp", "computer vision",
   "pandas", "numpy", "scikit learn",
   "tensorflow", "pytorch", "keras",
   "power bi", "tableau", "excel",
   "spark", "hadoop", "airflow", "kafka",
   "sql", "mysql", "postgresql", "oracle",
   "mongodb", "cassandra", "redis", "dynamodb",
   "cyber security", "information security",
   "network security", "penetration testing",
   "ethical hacking", "risk assessment",
   "business analysis", "requirements gathering",
   "stakeholder management", "process improvement",
   "project management", "program management",
   "product management",
   "agile", "scrum", "kanban", "waterfall",
   "financial analysis", "accounting",
   "budgeting", "forecasting",
   "risk management", "taxation",
   "auditing",
   "digital marketing", "seo", "sem",
   "content marketing", "email marketing",
   "social media marketing",
   "sales", "business development",
   "lead generation", "crm",
   "recruitment", "talent acquisition",
   "payroll", "hr operations",
   "employee engagement",
   "performance management",
   "operations management",
   "supply chain management",
   "logistics",
   "clinical research", "patient care",
   "medical coding", "healthcare administration",
   "teaching", "curriculum development",
   "instructional design",
   "training and development",
   "ui design", "ux design",
   "figma", "adobe photoshop",
   "adobe illustrator",
   "communication", "leadership",
   "problem solving", "critical thinking",
   "time management", "team collaboration"]

/-- The alias table, in Python dict insertion order (the iteration order used
by the substitution loop). -/
def SKILL_ALIASES : List (String × String) :=
  [("ml", "machine learning"),
   ("ai", "artificial intelligence"),
   ("js", "javascript"),
   ("reactjs", "react"),
   ("node", "node.js"),
   ("tf", "tensorflow"),
   ("ci/cd", "ci cd"),
   ("spring-boot", "spring boot"),
   ("scikit-learn", "scikit learn"),
   ("fp&a", "financial analysis"),
   ("seo/sem", "seo"),
   ("pm", "project management"),
   ("ba", "business analysis")]

/-- Apply every alias substitution over the text, in table order. -/
def applyAliases (s : List Char) : List Char :=
  SKILL_ALIASES.foldl (fun t p => substAlias p.1.data p.2.data t) s

/-- The text every taxonomy pattern is searched in: normalized, then
alias-substituted. -/
def preprocess (s : List Char) : List Char := applyAliases (normalizeL s)

/-- `extract_resume_skills` from `enhanced_extractor.py`: collect the taxonomy
phrases whose `\b`-anchored token pattern occurs in the preprocessed text, as
a sorted deduplicated list (`sorted` over a Python set). -/
def extract_resume_skills (text : String) : List String :=
  List.insertionSort (fun a b => pyLe a b = true)
    (List.dedup (SKILL_TAXONOMY.filter fun sk =>
      reSearch (splitToks sk.data) (preprocess text.data)))

/-- `extract_skills_from_text` from `lambda_handler.py`: same pipeline, but the
taxonomy pattern is the literal skill string with lookaround anchors. -/
def extract_skills_from_text (text : String) : List String :=
  List.insertionSort (fun a b => pyLe a b = true)
    (List.dedup (SKILL_TAXONOMY.filter fun sk =>
      searchLA sk.data (preprocess text.data)))

/-! ### Ranker (`utils/ranker.py`) -/

def dotL (a b : List ℚ) : ℚ := (List.zipWith (· * ·) a b).sum

def normSq (a : List ℚ) : ℚ := (a.map fun x => x * x).sum

/-- `cos_sim_safe` over exact reals: `0` when the product of the vector norms
is zero, otherwise `dot / (‖a‖ * ‖b‖)`. -/
noncomputable def cos_sim_safe (a b : List ℚ) : ℝ :=
  if Real.sqrt (normSq a) * Real.sqrt (normSq b) = 0 then 0
  else (dotL a b : ℝ) / (Real.sqrt (normSq a) * Real.sqrt (normSq b))

def clamp01 (x : ℚ) : ℚ := max 0 (min 1 x)

def defaultWeights : List ℚ := [55/100, 25/100, 10/100, 10/100]

/-- `compute_final_score` from `utils/ranker.py`; the `ValueError` raised on a
wrong-length weight vector is modelled as `Except.error`. Normalization is
applied only when the raw weight sum is positive, exactly as in the source. -/
def compute_final_score (semantic keyword recency popularity : ℚ)
    (weights : Option (List ℚ)) : Except String ℚ :=
  match weights.getD defaultWeights with
  | [w0, w1, w2, w3] =>
    let total := w0 + w1 + w2 + w3
    let n0 := if 0 < total then w0 / total else w0
    let n1 := if 0 < total then w1 / total else w1
    let n2 := if 0 < total then w2 / total else w2
    let n3 := if 0 < total then w3 / total else w3
    Except.ok (n0 * clamp01 semantic + n1 * clamp01 keyword +
      n2 * clamp01 recency + n3 * clamp01 popularity)
  | _ => Except.error "weights must contain exactly 4 values"

/-! ### Scoring helpers inlined in `streamlit_app.py` -/

/-- The recency banding; `none` = job has no posted date, `some none` = the
date failed to parse, `some (some d)` = the posting is `d` days old. -/
def recency : Option (Option ℤ) → ℚ
  | none => 1/2
  | some none => 1/2
  | some (some days) =>
    if days ≤ 1 then 1
    else if days ≤ 7 then 8/10
    else if days ≤ 30 then 6/10
    else 3/10

/-- The keyword sub-score: `len(set(resume) & set(job)) / max(1, len(resume))`. -/
def keyword (resumeSkills jobSkills : List String) : ℚ :=
  ((resumeSkills.toFinset ∩ jobSkills.toFinset).card : ℚ) /
    ((max 1 resumeSkills.length : ℕ) : ℚ)

/-- The per-job missing skills: `sorted(set(job_skills) - set(resume_skills))`. -/
def missing (resumeSkills jobSkills : List String) : List String :=
  List.insertionSort (fun a b => pyLe a b = true)
    (List.dedup (jobSkills.filter fun s => decide (s ∉ resumeSkills)))

/-! ### Specification-level occurrence predicate -/

/-- `Joined toks mid`: `mid` is the tokens of the phrase written consecutively,
adjacent tokens separated by a nonempty whitespace run. -/
inductive Joined : List (List Char) → List Char → Prop
  | single (t : List Char) : Joined [t] t
  | cons (t ws : List Char) (ts : List (List Char)) (rest : List Char)
      (hws : ws ≠ []) (hsp : ∀ c ∈ ws, isSpaceChar c = true)
      (h : Joined ts rest) : Joined (t :: ts) (t ++ (ws ++ rest))

/-- The phrase occurs in the text: its tokens appear consecutively, separated
by whitespace, with a word boundary immediately before the first token and
immediately after the last one. -/
def OccursSpec (toks : List (List Char)) (text : List Char) : Prop :=
  ∃ pre mid post, text = pre ++ mid ++ post ∧ Joined toks mid ∧
    boundaryB pre.getLast? mid.head? = true ∧
    boundaryB mid.getLast? post.head? = true

/-! ### Side conditions for alias substitution around a protected phrase -/

/-- No placement of the alias `a` inside the scanned suffix `s` of the
protected phrase passes both lookarounds (`prevW` is the character preceding
`s` inside the phrase; the position before the phrase and the position after
it count as non-word). -/
def noIntOcc (a : List Char) : Option Char → List Char → Bool
  | prevW, [] =>
    !a.isPrefixOf [] || wordOpt prevW
  | prevW, x :: xs =>
    (!a.isPrefixOf (x :: xs) || wordOpt prevW ||
      wordOpt (List.drop a.length (x :: xs)).head?) &&
    noIntOcc a (some x) xs

/-- No split `a = a1 ++ ch :: a2` with a non-word `ch` and a nonempty `a2`
that is a prefix of `w`: a match of `a` cannot end inside `w` having started
left of it. -/
def noLeftSpan (w : List Char) : List Char → Bool
  | [] => true
  | ch :: a2 => (isWordChar ch || a2.isEmpty || !a2.isPrefixOf w) && noLeftSpan w a2

/-- Helper for `noRightSpan`: `acc` is the (nonempty) part of the alias read
so far. -/
def noRightSpanAux (w : List Char) : List Char → List Char → Bool
  | _, [] => true
  | acc, ch :: a2 =>
    (isWordChar ch || !List.isSuffixOf acc w) && noRightSpanAux w (acc ++ [ch]) a2

/-- No split `a = a1 ++ ch :: a2` with a nonempty `a1` that is a suffix of `w`
and a non-word `ch`: a match of `a` cannot start inside `w` and leave it. -/
def noRightSpan (w : List Char) : List Char → Bool
  | [] => true
  | ch :: a2 => noRightSpanAux w [ch] a2

/-- All conditions on an alias pair `p` under which one substitution pass
leaves every boundary-delimited occurrence of the phrase `w` intact. -/
def AliasSafe (w : List Char) (p : String × String) : Prop :=
  p.1.data ≠ [] ∧ wordOpt p.1.data.head? = true ∧ wordOpt p.1.data.getLast? = true ∧
  p.1.data.length ≤ w.length ∧ noIntOcc p.1.data none w = true ∧
  noLeftSpan w p.1.data = true ∧ noRightSpan w p.1.data = true

instance (w : List Char) (p : String × String) : Decidable (AliasSafe w p) := by
  unfold AliasSafe
  infer_instance

/-! ### Order machinery: `pyLe` agrees with the string order -/

lemma lexLe_iff_not_lex (a b : List Char) :
    lexLe a b = true ↔ ¬ List.Lex (· < ·) b a := by
  induction a generalizing b with
  | nil =>
    refine ⟨fun _ h => ?_, fun _ => rfl⟩
    cases h
  | cons x as ih =>
    cases b with
    | nil =>
      constructor
      · intro h; exact absurd h (by simp [lexLe])
      · intro h; exact absurd (List.Lex.nil) h
    | cons y bs =>
      simp only [lexLe]
      rcases lt_trichotomy x y with hxy | hxy | hxy
      · rw [if_pos hxy]
        simp only [true_iff]
        intro h
        cases h with
        | cons h => exact absurd hxy (lt_irrefl x)
        | rel h => exact absurd hxy (asymm h)
      · subst hxy
        rw [if_neg (lt_irrefl x), if_neg (lt_irrefl x)]
        rw [ih bs]
        constructor
        · intro h hc
          cases hc with
          | cons hc => exact h hc
          | rel hc => exact absurd hc (lt_irrefl x)
        · intro h hc; exact h (List.Lex.cons hc)
      · rw [if_neg (asymm hxy), if_pos hxy]
        constructor
        · intro h; exact absurd h (by simp)
        · intro h; exact absurd (List.Lex.rel hxy) h

lemma pyLe_iff (a b : String) : pyLe a b = true ↔ a ≤ b := by
  rw [pyLe, lexLe_iff_not_lex]
  have hlt : b < a ↔ List.Lex (· < ·) b.data a.data := String.lt_iff_toList_lt
  rw [← hlt]
  exact not_lt

instance : IsTotal String (fun a b => pyLe a b = true) where
  total a b := by
    rw [pyLe_iff, pyLe_iff]
    exact le_total a b

instance : IsTrans String (fun a b => pyLe a b = true) where
  trans a b c hab hbc :=
    (pyLe_iff a c).mpr (le_trans ((pyLe_iff a b).mp hab) ((pyLe_iff b c).mp hbc))

lemma mem_pySort {l : List String} {s : String} :
    s ∈ List.insertionSort (fun a b => pyLe a b = true) l ↔ s ∈ l :=
  (List.perm_insertionSort _ l).mem_iff

lemma nodup_pySort {l : List String} (h : l.Nodup) :
    (List.insertionSort (fun a b => pyLe a b = true) l).Nodup :=
  ((List.perm_insertionSort _ l).nodup_iff).mpr h

lemma sorted_pySort (l : List String) :
    (List.insertionSort (fun a b => pyLe a b = true) l).Sorted (· ≤ ·) :=
  (List.sorted_insertionSort _ l).imp fun h => (pyLe_iff _ _).mp h

/-! ### Membership in the extraction results -/

lemma mem_extract_resume_skills {text sk : String} :
    sk ∈ extract_resume_skills text ↔
      sk ∈ SKILL_TAXONOMY ∧ reSearch (splitToks sk.data) (preprocess text.data) = true := by
  rw [extract_resume_skills, mem_pySort, List.mem_dedup, List.mem_filter]

lemma mem_extract_skills_from_text {text sk : String} :
    sk ∈ extract_skills_from_text text ↔
      sk ∈ SKILL_TAXONOMY ∧ searchLA sk.data (preprocess text.data) = true := by
  rw [extract_skills_from_text, mem_pySort, List.mem_dedup, List.mem_filter]

lemma extract_resume_skills_nodup (text : String) :
    (extract_resume_skills text).Nodup :=
  nodup_pySort (List.nodup_dedup _)

lemma extract_resume_skills_sorted (text : String) :
    (extract_resume_skills text).Sorted (· ≤ ·) :=
  sorted_pySort _

/-! ### Small facts about the clamp -/

lemma clamp01_nonneg (x : ℚ) : 0 ≤ clamp01 x := le_max_left 0 _

lemma clamp01_le_one (x : ℚ) : clamp01 x ≤ 1 := max_le zero_le_one (min_le_left 1 x)

/-- Evaluation of `compute_final_score` on an explicit 4-entry weight vector. -/
lemma compute_final_score_some (s k r p w0 w1 w2 w3 : ℚ) :
    compute_final_score s k r p (some [w0, w1, w2, w3]) =
      Except.ok
        ((if 0 < w0 + w1 + w2 + w3 then w0 / (w0 + w1 + w2 + w3) else w0) * clamp01 s +
         (if 0 < w0 + w1 + w2 + w3 then w1 / (w0 + w1 + w2 + w3) else w1) * clamp01 k +
         (if 0 < w0 + w1 + w2 + w3 then w2 / (w0 + w1 + w2 + w3) else w2) * clamp01 r +
         (if 0 < w0 + w1 + w2 + w3 then w3 / (w0 + w1 + w2 + w3) else w3) * clamp01 p) :=
  rfl

/-- C3: if either input vector has norm exactly zero, `cos_sim_safe` returns
exactly `0` — the division is performed only when the product of the norms is
nonzero, so a zero vector can neither crash nor poison the score. -/
theorem c3_cos_sim_safe_zero (a b : List ℚ)
    (h : Real.sqrt ((normSq a : ℚ) : ℝ) = 0 ∨ Real.sqrt ((normSq b : ℚ) : ℝ) = 0) :
    cos_sim_safe a b = 0 := by
  have hz : Real.sqrt ((normSq a : ℚ) : ℝ) * Real.sqrt ((normSq b : ℚ) : ℝ) = 0 := by
    rcases h with h | h
    · rw [h, zero_mul]
    · rw [h, mul_zero]
  rw [cos_sim_safe, if_pos hz]

/-- Witness for C3 at the spec example `cosine_similarity([0,0,0],[1,2,3]) == 0.0`. -/
theorem c3_witness :
    Real.sqrt ((normSq ([0, 0, 0] : List ℚ) : ℚ) : ℝ) = 0 ∧
      cos_sim_safe [0, 0, 0] [1, 2, 3] = 0 := by
  have h0 : normSq ([0, 0, 0] : List ℚ) = 0 := by norm_num [normSq]
  have h : Real.sqrt ((normSq ([0, 0, 0] : List ℚ) : ℚ) : ℝ) = 0 := by
    rw [h0]
    simp
  exact ⟨h, c3_cos_sim_safe_zero _ _ (Or.inl h)⟩

/-- C6: the recency sub-score is the exact step function of posting age in
days, with `0.5` for a missing or unparseable posted date. -/
theorem c6_recency_step (d : ℤ) :
    (d ≤ 1 → recency (some (some d)) = 1) ∧
    (1 < d → d ≤ 7 → recency (some (some d)) = 8/10) ∧
    (7 < d → d ≤ 30 → recency (some (some d)) = 6/10) ∧
    (30 < d → recency (some (some d)) = 3/10) ∧
    recency none = 1/2 ∧ recency (some none) = 1/2 ∧
    recency (some (some 0)) = 1 ∧ recency (some (some 15)) = 6/10 := by
  refine ⟨fun h => ?_, fun h1 h2 => ?_, fun h1 h2 => ?_, fun h1 => ?_, rfl, rfl, ?_, ?_⟩
  · simp only [recency]
    rw [if_pos h]
  · simp only [recency]
    rw [if_neg (by omega), if_pos h2]
  · simp only [recency]
    rw [if_neg (by omega), if_neg (by omega), if_pos h2]
  · simp only [recency]
    rw [if_neg (by omega), if_neg (by omega), if_neg (by omega)]
  · simp only [recency]
    rw [if_pos (by omega : (0:ℤ) ≤ 1)]
  · simp only [recency]
    rw [if_neg (by omega), if_neg (by omega), if_pos (by omega : (15:ℤ) ≤ 30)]

/-- Witness for C6 at age 5 days (band `0.8`). -/
theorem c6_witness :
    (1 < (5 : ℤ)) ∧ ((5 : ℤ) ≤ 7) ∧ recency (some (some 5)) = 8/10 :=
  ⟨by decide, by decide, (c6_recency_step 5).2.1 (by decide) (by decide)⟩

/-- C7: the keyword sub-score is `|R ∩ J| / max(1, |R|)`, well defined, in
`[0, 1]`, `0` on an empty resume skill set, asymmetric, and `0.5` on the
spec scenario. -/
theorem c7_keyword (r j : List String) (hr : r.Nodup) :
    keyword r j =
      ((r.toFinset ∩ j.toFinset).card : ℚ) / ((max 1 r.toFinset.card : ℕ) : ℚ) ∧
    0 ≤ keyword r j ∧ keyword r j ≤ 1 ∧
    (r = [] → keyword r j = 0) ∧
    keyword ["python", "sql"] ["python", "aws"] = 1/2 ∧
    keyword ["python"] ["python", "sql"] = 1 ∧
    keyword ["python", "sql"] ["python"] = 1/2 := by
  have hlen : r.toFinset.card = r.length := List.toFinset_card_of_nodup hr
  have hcard1 :
      (((["python", "sql"] : List String).toFinset ∩
        (["python", "aws"] : List String).toFinset).card) = 1 := by decide
  have hcard2 :
      (((["python"] : List String).toFinset ∩
        (["python", "sql"] : List String).toFinset).card) = 1 := by decide
  have hcard3 :
      (((["python", "sql"] : List String).toFinset ∩
        (["python"] : List String).toFinset).card) = 1 := by decide
  refine ⟨by rw [keyword, hlen], ?_, ?_, ?_, ?_, ?_, ?_⟩
  · exact div_nonneg (by positivity) (by positivity)
  · rw [keyword]
    apply div_le_one_of_le₀
    · have hle : (r.toFinset ∩ j.toFinset).card ≤ max 1 r.length :=
        le_trans (Finset.card_le_card Finset.inter_subset_left)
          (hlen ▸ le_max_right 1 r.toFinset.card)
      exact_mod_cast Nat.cast_le.mpr hle
    · positivity
  · intro h
    subst h
    simp [keyword]
  · rw [keyword, hcard1]
    norm_num
  · rw [keyword, hcard2]
    norm_num
  · rw [keyword, hcard3]
    norm_num

/-- Witness for C7 at the spec scenario. -/
theorem c7_witness :
    (["python", "sql"] : List String).Nodup ∧
      keyword ["python", "sql"] ["python", "aws"] = 1/2 :=
  ⟨by decide, (c7_keyword ["python", "sql"] ["python", "aws"] (by decide)).2.2.2.2.1⟩

/-- C9: the per-job missing-skill list is the set difference `J \\ R`, sorted
lexicographically and duplicate-free, and matches the spec example. -/
theorem c9_missing_skills (r j : List String) :
    (∀ s, s ∈ missing r j ↔ s ∈ j ∧ s ∉ r) ∧
    (missing r j).Sorted (· ≤ ·) ∧ (missing r j).Nodup ∧
    missing ["python"] ["python", "sql"] = ["sql"] := by
  refine ⟨fun s => ?_, sorted_pySort _, nodup_pySort (List.nodup_dedup _), by decide⟩
  rw [missing, mem_pySort, List.mem_dedup, List.mem_filter]
  simp

/-- C1 counterexample: for the positive-sum weight vector `[2, -1, 0, 0]` and
sub-scores `(0, 1, 0, 0)`, the returned score is `-1`, which is outside
`[0, 1]` — so positivity of the weight sum alone does not bound the result. -/
theorem c1_counterexample :
    compute_final_score 0 1 0 0 (some [2, -1, 0, 0]) = Except.ok (-1) ∧
      ¬ (0 : ℚ) ≤ -1 := by
  constructor
  · rw [compute_final_score_some]
    norm_num [clamp01]
  · norm_num

/-- C1 (amended): for a 4-entry weight vector of nonnegative floats with
positive sum, the score is the weighted sum of the clamped sub-scores with
weights normalized by their sum; it lies in `[0, 1]`; a sub-score of `1.5`
(resp. `-0.5`) behaves exactly as `1` (resp. `0`); and the default weights
with all-ones sub-scores give exactly `1`. -/
theorem c1_final_score (w0 w1 w2 w3 s k r p : ℚ)
    (h0 : 0 ≤ w0) (h1 : 0 ≤ w1) (h2 : 0 ≤ w2) (h3 : 0 ≤ w3)
    (hpos : 0 < w0 + w1 + w2 + w3) :
    compute_final_score s k r p (some [w0, w1, w2, w3]) =
      Except.ok ((w0 / (w0 + w1 + w2 + w3)) * clamp01 s +
        (w1 / (w0 + w1 + w2 + w3)) * clamp01 k +
        (w2 / (w0 + w1 + w2 + w3)) * clamp01 r +
        (w3 / (w0 + w1 + w2 + w3)) * clamp01 p) ∧
    0 ≤ (w0 / (w0 + w1 + w2 + w3)) * clamp01 s +
        (w1 / (w0 + w1 + w2 + w3)) * clamp01 k +
        (w2 / (w0 + w1 + w2 + w3)) * clamp01 r +
        (w3 / (w0 + w1 + w2 + w3)) * clamp01 p ∧
    (w0 / (w0 + w1 + w2 + w3)) * clamp01 s +
        (w1 / (w0 + w1 + w2 + w3)) * clamp01 k +
        (w2 / (w0 + w1 + w2 + w3)) * clamp01 r +
        (w3 / (w0 + w1 + w2 + w3)) * clamp01 p ≤ 1 ∧
    compute_final_score (3/2) k r p (some [w0, w1, w2, w3]) =
      compute_final_score 1 k r p (some [w0, w1, w2, w3]) ∧
    compute_final_score s (-1/2) r p (some [w0, w1, w2, w3]) =
      compute_final_score s 0 r p (some [w0, w1, w2, w3]) ∧
    compute_final_score 1 1 1 1 none = Except.ok 1 := by
  have hT : (0:ℚ) < w0 + w1 + w2 + w3 := hpos
  have hd0 : (0:ℚ) ≤ w0 / (w0 + w1 + w2 + w3) := div_nonneg h0 hT.le
  have hd1 : (0:ℚ) ≤ w1 / (w0 + w1 + w2 + w3) := div_nonneg h1 hT.le
  have hd2 : (0:ℚ) ≤ w2 / (w0 + w1 + w2 + w3) := div_nonneg h2 hT.le
  have hd3 : (0:ℚ) ≤ w3 / (w0 + w1 + w2 + w3) := div_nonneg h3 hT.le
  refine ⟨?_, ?_, ?_, ?_, ?_, ?_⟩
  · rw [compute_final_score_some]
    simp only [if_pos hpos]
  · have := mul_nonneg hd0 (clamp01_nonneg s)
    have := mul_nonneg hd1 (clamp01_nonneg k)
    have := mul_nonneg hd2 (clamp01_nonneg r)
    have := mul_nonneg hd3 (clamp01_nonneg p)
    linarith
  · have e0 := mul_le_of_le_one_right hd0 (clamp01_le_one s)
    have e1 := mul_le_of_le_one_right hd1 (clamp01_le_one k)
    have e2 := mul_le_of_le_one_right hd2 (clamp01_le_one r)
    have e3 := mul_le_of_le_one_right hd3 (clamp01_le_one p)
    have hsum : w0 / (w0 + w1 + w2 + w3) + w1 / (w0 + w1 + w2 + w3) +
        w2 / (w0 + w1 + w2 + w3) + w3 / (w0 + w1 + w2 + w3) = 1 := by
      rw [div_add_div_same, div_add_div_same, div_add_div_same]
      exact div_self hT.ne'
    linarith
  · have hcl : clamp01 (3/2 : ℚ) = clamp01 1 := by norm_num [clamp01]
    rw [compute_final_score_some, compute_final_score_some, hcl]
  · have hcl : clamp01 (-1/2 : ℚ) = clamp01 0 := by norm_num [clamp01]
    rw [compute_final_score_some, compute_final_score_some, hcl]
  · have : compute_final_score 1 1 1 1 none =
        compute_final_score 1 1 1 1 (some [55/100, 25/100, 10/100, 10/100]) := rfl
    rw [this, compute_final_score_some]
    norm_num [clamp01]

/-- Witness for C1 (amended) at the default weights and all-ones sub-scores. -/
theorem c1_witness : compute_final_score 1 1 1 1 none = Except.ok 1 :=
  (c1_final_score 1 1 1 1 1 1 1 1 (by norm_num) (by norm_num) (by norm_num)
    (by norm_num) (by norm_num)).2.2.2.2.2

/-- C8 counterexample: an all-zero weight vector does **not** raise — the
source guards normalization behind `if total > 0`, skips it, and returns the
raw weighted sum `0`. -/
theorem c8_counterexample :
    compute_final_score 1 1 1 1 (some [0, 0, 0, 0]) = Except.ok 0 := by
  rw [compute_final_score_some]
  norm_num [clamp01]

/-- C8 (amended): a weight vector without exactly 4 entries fails with the
validation error before computing anything; a zero-sum 4-entry vector raises
nothing — normalization is skipped and the raw weights are used; and every
4-entry vector with positive sum succeeds. -/
theorem c8_weight_validation :
    (∀ ws : List ℚ, ws.length ≠ 4 → ∀ s k r p,
      compute_final_score s k r p (some ws) =
        Except.error "weights must contain exactly 4 values") ∧
    (∀ w0 w1 w2 w3 s k r p : ℚ, w0 + w1 + w2 + w3 = 0 →
      compute_final_score s k r p (some [w0, w1, w2, w3]) =
        Except.ok (w0 * clamp01 s + w1 * clamp01 k +
          w2 * clamp01 r + w3 * clamp01 p)) ∧
    (∀ w0 w1 w2 w3 s k r p : ℚ, 0 < w0 + w1 + w2 + w3 →
      ∃ v, compute_final_score s k r p (some [w0, w1, w2, w3]) = Except.ok v) := by
  refine ⟨?_, ?_, ?_⟩
  · intro ws hlen s k r p
    rcases ws with _ | ⟨a, _ | ⟨b, _ | ⟨c, _ | ⟨d, _ | ⟨e, tl⟩⟩⟩⟩⟩
    · rfl
    · rfl
    · rfl
    · rfl
    · exact absurd rfl hlen
    · rfl
  · intro w0 w1 w2 w3 s k r p h
    rw [compute_final_score_some]
    simp only [h, lt_self_iff_false, if_false]
  · intro w0 w1 w2 w3 s k r p h
    exact ⟨_, compute_final_score_some s k r p w0 w1 w2 w3⟩

/-- Witness for C8 (amended): a 2-entry vector errors, an all-zero 4-entry
vector returns a value. -/
theorem c8_witness :
    (([(1:ℚ), 1]).length ≠ 4 ∧
      compute_final_score 0 0 0 0 (some [(1:ℚ), 1]) =
        Except.error "weights must contain exactly 4 values") ∧
    ((0:ℚ) + 0 + 0 + 0 = 0 ∧
      compute_final_score 2 2 2 2 (some [(0:ℚ), 0, 0, 0]) =
        Except.ok ((0:ℚ) * clamp01 2 + 0 * clamp01 2 + 0 * clamp01 2 + 0 * clamp01 2)) :=
  ⟨⟨by norm_num, c8_weight_validation.1 _ (by norm_num) 0 0 0 0⟩,
   ⟨by norm_num, c8_weight_validation.2.1 0 0 0 0 2 2 2 2 (by norm_num)⟩⟩


/-! ### Basic facts about prefixes, `lastO`, and `Joined` -/

/-- A taxonomy token: nonempty and whitespace-free. -/
def TokOk (t : List Char) : Prop := t ≠ [] ∧ ∀ c ∈ t, isSpaceChar c = false

instance (t : List Char) : Decidable (TokOk t) := by
  unfold TokOk
  infer_instance

lemma isPrefixOf_eq_append {a s : List Char} (h : a.isPrefixOf s = true) :
    ∃ u, s = a ++ u := by
  induction a generalizing s with
  | nil => exact ⟨s, rfl⟩
  | cons x as ih =>
    cases s with
    | nil => simp [List.isPrefixOf] at h
    | cons y ys =>
      simp only [List.isPrefixOf, Bool.and_eq_true, beq_iff_eq] at h
      obtain ⟨rfl, h⟩ := h
      obtain ⟨u, rfl⟩ := ih h
      exact ⟨u, rfl⟩

lemma isPrefixOf_append (a u : List Char) : a.isPrefixOf (a ++ u) = true := by
  induction a with
  | nil => simp [List.isPrefixOf]
  | cons x as ih => simp [List.isPrefixOf, ih]

lemma isPrefixOf_split {a U X : List Char} (h : a.isPrefixOf (U ++ X) = true)
    (hlen : U.length ≤ a.length) : ∃ a2, a = U ++ a2 ∧ a2.isPrefixOf X = true := by
  induction U generalizing a with
  | nil => exact ⟨a, rfl, h⟩
  | cons c U2 ih =>
    cases a with
    | nil => simp at hlen
    | cons d a2 =>
      simp only [List.cons_append, List.isPrefixOf, Bool.and_eq_true, beq_iff_eq] at h
      obtain ⟨rfl, h⟩ := h
      obtain ⟨a3, rfl, hp⟩ := ih h (by simpa using hlen)
      exact ⟨a3, rfl, hp⟩

lemma lastO_none (l : List Char) : lastO none l = l.getLast? := by
  rw [lastO]
  cases l.getLast? <;> rfl

lemma lastO_cons (prev : Option Char) (c : Char) (l : List Char) :
    lastO prev (c :: l) = lastO (some c) l := by
  cases l with
  | nil => rfl
  | cons x xs =>
    simp only [lastO, List.getLast?_cons_cons]
    cases h : (x :: xs).getLast? with
    | none => exact absurd (List.getLast?_eq_none_iff.mp h) (by simp)
    | some y => rfl

lemma getLast?_mem {l : List Char} {c : Char} (h : l.getLast? = some c) : c ∈ l := by
  induction l with
  | nil => simp at h
  | cons x xs ih =>
    cases xs with
    | nil =>
      simp only [List.getLast?_singleton, Option.some.injEq] at h
      simp [h]
    | cons y ys =>
      rw [List.getLast?_cons_cons] at h
      exact List.mem_cons_of_mem x (ih h)

lemma Joined.toks_ne_nil {toks : List (List Char)} {mid : List Char}
    (h : Joined toks mid) : toks ≠ [] := by
  cases h <;> simp

lemma Joined.head_eq {toks : List (List Char)} {mid : List Char}
    (h : Joined toks mid) (ht : ∀ t ∈ toks, TokOk t) :
    ∃ c mid2, mid = c :: mid2 ∧ isSpaceChar c = false := by
  cases h with
  | single =>
    obtain ⟨hne, hsp⟩ := ht mid (by simp)
    cases mid with
    | nil => exact absurd rfl hne
    | cons c cs => exact ⟨c, cs, rfl, hsp c (by simp)⟩
  | cons t ws ts rest hws hsp hj =>
    obtain ⟨hne, hspace⟩ := ht t (by simp)
    cases t with
    | nil => exact absurd rfl hne
    | cons c cs => exact ⟨c, cs ++ (ws ++ rest), rfl, hspace c (by simp)⟩

lemma Joined.ne_nil {toks : List (List Char)} {mid : List Char}
    (h : Joined toks mid) (ht : ∀ t ∈ toks, TokOk t) : mid ≠ [] := by
  obtain ⟨c, mid2, rfl, -⟩ := h.head_eq ht
  simp

lemma toksLast_cons {t : List Char} {ts : List (List Char)} (h : ts ≠ []) :
    toksLast (t :: ts) = toksLast ts := by
  cases ts with
  | nil => exact absurd rfl h
  | cons a l => simp only [toksLast, List.getLast?_cons_cons]

lemma Joined.getLast_eq {toks : List (List Char)} {mid : List Char}
    (h : Joined toks mid) (ht : ∀ t ∈ toks, TokOk t) :
    mid.getLast? = toksLast toks := by
  induction h with
  | single t => simp [toksLast]
  | cons t ws ts rest hws hsp hj ih =>
    have hts : ∀ t2 ∈ ts, TokOk t2 := fun t2 h2 => ht t2 (List.mem_cons_of_mem _ h2)
    have hrest : rest ≠ [] := hj.ne_nil hts
    have hwr : ws ++ rest ≠ [] := fun hx => hrest (List.append_eq_nil.mp hx).2
    rw [List.getLast?_append_of_ne_nil _ hwr, List.getLast?_append_of_ne_nil _ hrest,
      ih hts, toksLast_cons hj.toks_ne_nil]

/-! ### Soundness of the taxonomy scanner -/

lemma matchToks_sound :
    ∀ (toks : List (List Char)) (s rest : List Char), toks ≠ [] →
      (∀ t ∈ toks, TokOk t) → matchToks toks s = some rest →
      ∃ mid, s = mid ++ rest ∧ Joined toks mid := by
  intro toks
  induction toks with
  | nil => intro s rest h; exact absurd rfl h
  | cons t ts ih =>
    intro s rest _ ht hm
    by_cases hp : t.isPrefixOf s = true
    case neg =>
      simp only [matchToks, if_neg hp] at hm
      exact absurd hm (by simp)
    case pos =>
      obtain ⟨u, rfl⟩ := isPrefixOf_eq_append hp
      cases ts with
      | nil =>
        simp only [matchToks, hp, if_true, List.drop_left, Option.some.injEq] at hm
        subst hm
        exact ⟨t, rfl, Joined.single t⟩
      | cons t2 ts2 =>
        cases u with
        | nil => simp [matchToks, hp] at hm
        | cons c cs =>
          simp only [matchToks, hp, if_true, List.drop_left] at hm
          by_cases hc : isSpaceChar c = true
          case neg =>
            rw [if_neg hc] at hm
            exact absurd hm (by simp)
          case pos =>
            rw [if_pos hc] at hm
            obtain ⟨mid2, hmid2, hj⟩ := ih (cs.dropWhile isSpaceChar) rest (by simp)
              (fun t2 h2 => ht t2 (List.mem_cons_of_mem _ h2)) hm
            refine ⟨t ++ ((c :: cs.takeWhile isSpaceChar) ++ mid2), ?_, ?_⟩
            · have hcs : cs = cs.takeWhile isSpaceChar ++ (mid2 ++ rest) := by
                rw [← hmid2, List.takeWhile_append_dropWhile]
              conv_lhs => rw [hcs]
              simp [List.append_assoc]
            · refine Joined.cons t (c :: cs.takeWhile isSpaceChar) (t2 :: ts2) mid2
                (by simp) ?_ hj
              intro d hd
              rcases List.mem_cons.mp hd with rfl | hd
              · exact hc
              · exact List.mem_takeWhile_imp hd

lemma matchToks_nil_of_ne {toks : List (List Char)} (h : toks ≠ [])
    (ht : ∀ t ∈ toks, TokOk t) : matchToks toks [] = none := by
  cases toks with
  | nil => exact absurd rfl h
  | cons t ts =>
    have hne : t ≠ [] := (ht t (by simp)).1
    have hp : t.isPrefixOf ([] : List Char) = false := by
      cases t with
      | nil => exact absurd rfl hne
      | cons a as => rfl
    simp [matchToks, hp]

lemma matchHere_nil {toks : List (List Char)} (h : toks ≠ [])
    (ht : ∀ t ∈ toks, TokOk t) {prev : Option Char} :
    matchHere toks prev [] = false := by
  rw [matchHere, matchToks_nil_of_ne h ht]

lemma searchFrom_sound {toks : List (List Char)} (hne : toks ≠ [])
    (ht : ∀ t ∈ toks, TokOk t) :
    ∀ (s : List Char) (prev : Option Char), searchFrom toks prev s = true →
      ∃ pre mid post, s = pre ++ mid ++ post ∧ Joined toks mid ∧
        boundaryB (lastO prev pre) mid.head? = true ∧
        boundaryB mid.getLast? post.head? = true := by
  intro s
  induction s with
  | nil =>
    intro prev h
    rw [searchFrom, matchHere_nil hne ht] at h
    exact absurd h (by simp)
  | cons x xs ih =>
    intro prev h
    rw [searchFrom] at h
    rcases Bool.or_eq_true_iff.mp h with h | h
    · rw [matchHere] at h
      cases hm : matchToks toks (x :: xs) with
      | none => rw [hm] at h; exact absurd h (by simp)
      | some rest =>
        rw [hm] at h
        obtain ⟨hb1, hb2⟩ := Bool.and_eq_true_iff.mp h
        obtain ⟨mid, hmid, hj⟩ := matchToks_sound toks (x :: xs) rest hne ht hm
        refine ⟨[], mid, rest, by simpa using hmid, hj, ?_, ?_⟩
        · have hh : (x :: xs).head? = mid.head? := by
            cases mid with
            | nil => exact absurd (hj.ne_nil ht) (by simp)
            | cons m ms => simp only [List.cons_append] at hmid; rw [List.head?_cons,
                (List.cons.inj hmid).1]; rfl
          rw [← hh]
          exact hb1
        · rw [hj.getLast_eq ht]
          exact hb2
    · obtain ⟨pre2, mid, post, heq, hj, hb1, hb2⟩ := ih (some x) h
      exact ⟨x :: pre2, mid, post, by rw [heq]; rfl,
        hj, by rw [lastO_cons]; exact hb1, hb2⟩

/-! ### Completeness of the taxonomy scanner -/

lemma matchHere_eval {toks : List (List Char)} {prev : Option Char}
    {s rest : List Char} (hm : matchToks toks s = some rest) :
    matchHere toks prev s =
      (boundaryB prev s.head? && boundaryB (toksLast toks) rest.head?) := by
  rw [matchHere, hm]

lemma matchToks_cons_cons_eval {t t2 : List Char} {ts2 : List (List Char)}
    {c : Char} {cs : List Char} (hc : isSpaceChar c = true) :
    matchToks (t :: t2 :: ts2) (t ++ (c :: cs)) =
      matchToks (t2 :: ts2) (List.dropWhile isSpaceChar cs) := by
  simp [matchToks, isPrefixOf_append, hc]

lemma matchToks_complete {toks : List (List Char)} {mid : List Char}
    (hj : Joined toks mid) :
    ∀ post, (∀ t ∈ toks, TokOk t) → matchToks toks (mid ++ post) = some post := by
  induction hj with
  | single t =>
    intro post ht
    simp [matchToks, isPrefixOf_append]
  | cons t ws ts rest hws hsp hj ih =>
    intro post ht
    have hts : ∀ t2 ∈ ts, TokOk t2 := fun t2 h2 => ht t2 (List.mem_cons_of_mem _ h2)
    obtain ⟨r0, rest2, rfl, hr0⟩ := hj.head_eq hts
    cases ws with
    | nil => exact absurd rfl hws
    | cons w0 ws2 =>
      have hw0 : isSpaceChar w0 = true := hsp w0 (by simp)
      have hassoc : (t ++ ((w0 :: ws2) ++ (r0 :: rest2))) ++ post
          = t ++ (w0 :: (ws2 ++ ((r0 :: rest2) ++ post))) := by simp
      rw [hassoc]
      cases ts with
      | nil => exact (hj.toks_ne_nil rfl).elim
      | cons t2 ts2 =>
        rw [matchToks_cons_cons_eval hw0]
        have hdw : List.dropWhile isSpaceChar (ws2 ++ ((r0 :: rest2) ++ post))
            = (r0 :: rest2) ++ post := by
          rw [List.dropWhile_append]
          have h1 : List.dropWhile isSpaceChar ws2 = [] :=
            List.dropWhile_eq_nil_iff.mpr fun d hd => hsp d (List.mem_cons_of_mem _ hd)
          rw [h1]
          simp only [List.isEmpty_nil, if_true]
          show List.dropWhile isSpaceChar (r0 :: (rest2 ++ post)) = r0 :: (rest2 ++ post)
          rw [List.dropWhile_cons, if_neg (by simp [hr0])]
        rw [hdw]
        exact ih post hts

lemma searchFrom_complete {toks : List (List Char)} (ht : ∀ t ∈ toks, TokOk t) :
    ∀ (pre : List Char) (prev : Option Char) (mid post : List Char), Joined toks mid →
      boundaryB (lastO prev pre) mid.head? = true →
      boundaryB mid.getLast? post.head? = true →
      searchFrom toks prev (pre ++ (mid ++ post)) = true := by
  intro pre
  induction pre with
  | nil =>
    intro prev mid post hj hb1 hb2
    obtain ⟨m, ms, rfl, -⟩ := hj.head_eq ht
    show searchFrom toks prev (m :: (ms ++ post)) = true
    rw [searchFrom]
    apply Bool.or_eq_true_iff.mpr
    left
    have hm : matchToks toks (m :: (ms ++ post)) = some post :=
      matchToks_complete hj post ht
    rw [matchHere_eval hm]
    have hb2x : boundaryB (toksLast toks) post.head? = true := by
      rw [← hj.getLast_eq ht]
      exact hb2
    exact Bool.and_eq_true_iff.mpr ⟨hb1, hb2x⟩
  | cons x pre2 ih =>
    intro prev mid post hj hb1 hb2
    show searchFrom toks prev (x :: (pre2 ++ (mid ++ post))) = true
    rw [searchFrom]
    apply Bool.or_eq_true_iff.mpr
    right
    rw [lastO_cons] at hb1
    exact ih (some x) mid post hj hb1 hb2

/-- Correctness of the `\b tok₁ \s+ … \s+ tokₖ \b` scanner: it finds a match
iff the phrase occurs, in the sense of `OccursSpec`. -/
theorem reSearch_iff_occurs {toks : List (List Char)} (hne : toks ≠ [])
    (ht : ∀ t ∈ toks, TokOk t) (text : List Char) :
    reSearch toks text = true ↔ OccursSpec toks text := by
  constructor
  · intro h
    obtain ⟨pre, mid, post, heq, hj, hb1, hb2⟩ := searchFrom_sound hne ht text none h
    rw [lastO_none] at hb1
    exact ⟨pre, mid, post, heq, hj, hb1, hb2⟩
  · rintro ⟨pre, mid, post, rfl, hj, hb1, hb2⟩
    have h := searchFrom_complete ht pre none mid post hj
      (by rw [lastO_none]; exact hb1) hb2
    rw [reSearch, List.append_assoc]
    exact h

/-! ### C2 — the extractor output is characterised by `OccursSpec` -/

set_option maxRecDepth 4096 in
lemma taxonomy_toks_ok :
    ∀ sk ∈ SKILL_TAXONOMY, splitToks sk.data ≠ [] ∧ ∀ t ∈ splitToks sk.data, TokOk t := by
  decide

/-- C2: a taxonomy phrase is in the extractor's output iff its tokens occur
consecutively, whitespace-separated and word-boundary-delimited, in the
normalized and alias-substituted text (`OccursSpec`); phrases are searched
independently of each other, and repeated occurrences add the phrase once. -/
theorem c2_extract_iff_occurs (text skill : String) (h : skill ∈ SKILL_TAXONOMY) :
    (skill ∈ extract_resume_skills text ↔
      OccursSpec (splitToks skill.data) (preprocess text.data)) ∧
    List.count skill (extract_resume_skills text) ≤ 1 := by
  obtain ⟨hne, ht⟩ := taxonomy_toks_ok skill h
  constructor
  · rw [mem_extract_resume_skills, ← reSearch_iff_occurs hne ht]
    simp [h]
  · exact List.nodup_iff_count_le_one.mp (extract_resume_skills_nodup text) skill

/-- Witness for C2 at the skill `python` and a concrete text. -/
theorem c2_witness :
    ("python" ∈ SKILL_TAXONOMY) ∧
    (("python" ∈ extract_resume_skills "We use Python daily" ↔
        OccursSpec (splitToks "python".data) (preprocess "We use Python daily".data)) ∧
      List.count "python" (extract_resume_skills "We use Python daily") ≤ 1) :=
  ⟨by decide, c2_extract_iff_occurs "We use Python daily" "python" (by decide)⟩

/-! ### C5 — output invariants and whitespace-only inputs -/

lemma space_cases {c : Char} (h : isSpaceChar c = true) :
    c = ' ' ∨ c = '\t' ∨ c = '\n' ∨ c = '\r' ∨ c = '\x0b' ∨ c = '\x0c' := by
  have h2 := h
  simp only [isSpaceChar, Bool.or_eq_true, beq_iff_eq] at h2
  tauto

lemma normChar_space {c : Char} (h : isSpaceChar c = true) : normChar c = c := by
  rcases space_cases h with rfl | rfl | rfl | rfl | rfl | rfl <;> decide

lemma space_not_word {c : Char} (h : isSpaceChar c = true) : isWordChar c = false := by
  rcases space_cases h with rfl | rfl | rfl | rfl | rfl | rfl <;> decide

lemma normalizeL_all_space :
    ∀ s : List Char, (∀ c ∈ s, isSpaceChar c = true) → normalizeL s = s := by
  intro s
  induction s with
  | nil => intro _; rfl
  | cons c cs ih =>
    intro h
    rw [normalizeL, List.map_cons, normChar_space (h c (by simp))]
    have h2 := ih fun d hd => h d (List.mem_cons_of_mem _ hd)
    rw [normalizeL] at h2
    rw [h2]

lemma substF_all_space {a c : List Char} (ha : wordOpt a.head? = true) :
    ∀ (fuel : Nat) (prev : Option Char) (s : List Char),
      (∀ d ∈ s, isSpaceChar d = true) → substF a c fuel prev s = s := by
  intro fuel
  induction fuel with
  | zero => intro prev s _; rfl
  | succ n ih =>
    intro prev s hs
    cases s with
    | nil => rfl
    | cons x xs =>
      have hmatch : aliasMatchAt a prev (x :: xs) = false := by
        cases a with
        | nil => simp [wordOpt] at ha
        | cons h0 a2 =>
          cases hcc : (h0 :: a2).isPrefixOf (x :: xs) with
          | true =>
            simp only [List.isPrefixOf, Bool.and_eq_true, beq_iff_eq] at hcc
            obtain ⟨heq, -⟩ := hcc
            have hw : isWordChar h0 = true := by simpa [wordOpt] using ha
            rw [heq, space_not_word (hs x (by simp))] at hw
            exact absurd hw (by simp)
          | false =>
            simp [aliasMatchAt, hcc]
      simp only [substF, hmatch, Bool.false_eq_true, if_false]
      rw [ih (some x) xs fun d hd => hs d (List.mem_cons_of_mem _ hd)]

lemma substAlias_all_space {a c s : List Char} (ha : wordOpt a.head? = true)
    (hs : ∀ d ∈ s, isSpaceChar d = true) : substAlias a c s = s :=
  substF_all_space ha s.length none s hs

lemma applyAliases_all_space {s : List Char}
    (hs : ∀ d ∈ s, isSpaceChar d = true) : applyAliases s = s := by
  have halias : ∀ p ∈ SKILL_ALIASES, wordOpt p.1.data.head? = true := by decide
  rw [applyAliases]
  suffices h : ∀ L : List (String × String), (∀ p ∈ L, wordOpt p.1.data.head? = true) →
      L.foldl (fun t p => substAlias p.1.data p.2.data t) s = s from h SKILL_ALIASES halias
  intro L
  induction L with
  | nil => intro _; rfl
  | cons p ps ih =>
    intro hL
    rw [List.foldl_cons, substAlias_all_space (hL p (by simp)) hs]
    exact ih fun q hq => hL q (List.mem_cons_of_mem _ hq)

lemma preprocess_all_space {s : List Char}
    (hs : ∀ d ∈ s, isSpaceChar d = true) : preprocess s = s := by
  rw [preprocess, normalizeL_all_space s hs, applyAliases_all_space hs]

lemma searchFrom_all_space {toks : List (List Char)} (hne : toks ≠ [])
    (ht : ∀ t ∈ toks, TokOk t) :
    ∀ (s : List Char) (prev : Option Char),
      (∀ d ∈ s, isSpaceChar d = true) → searchFrom toks prev s = false := by
  intro s
  induction s with
  | nil =>
    intro prev _
    rw [searchFrom]
    exact matchHere_nil hne ht
  | cons x xs ih =>
    intro prev hs
    rw [searchFrom]
    have hmh : matchHere toks prev (x :: xs) = false := by
      cases toks with
      | nil => exact absurd rfl hne
      | cons t ts =>
        obtain ⟨htne, htsp⟩ := ht t (by simp)
        have hp : t.isPrefixOf (x :: xs) = false := by
          cases t with
          | nil => exact absurd rfl htne
          | cons c cs =>
            cases hcc : (c :: cs).isPrefixOf (x :: xs) with
            | false => rfl
            | true =>
              simp only [List.isPrefixOf, Bool.and_eq_true, beq_iff_eq] at hcc
              obtain ⟨heq, -⟩ := hcc
              have h1 := htsp c (by simp)
              rw [heq, hs x (by simp)] at h1
              exact absurd h1 (by simp)
        have hnone : matchToks (t :: ts) (x :: xs) = none := by
          simp [matchToks, hp]
        rw [matchHere, hnone]
    rw [hmh]
    simp only [Bool.false_or]
    exact ih (some x) fun d hd => hs d (List.mem_cons_of_mem _ hd)

lemma extract_all_space {text : String}
    (h : ∀ c ∈ text.data, isSpaceChar c = true) :
    extract_resume_skills text = [] := by
  rw [extract_resume_skills]
  have hfilter : SKILL_TAXONOMY.filter
      (fun sk => reSearch (splitToks sk.data) (preprocess text.data)) = [] := by
    rw [List.filter_eq_nil_iff]
    intro sk hsk
    obtain ⟨hne, ht⟩ := taxonomy_toks_ok sk hsk
    rw [preprocess_all_space h, reSearch,
      searchFrom_all_space hne ht text.data none h]
    simp
  rw [hfilter]
  rfl

/-- C5: for every input string the extractor returns a lexicographically
sorted, duplicate-free list of taxonomy members; a whitespace-only (in
particular empty) input yields the empty list. (The embedding is a total
function, so no exception can occur.) -/
theorem c5_extract_invariants (text : String) :
    (extract_resume_skills text).Sorted (· ≤ ·) ∧
    (extract_resume_skills text).Nodup ∧
    (∀ sk ∈ extract_resume_skills text, sk ∈ SKILL_TAXONOMY) ∧
    ((∀ c ∈ text.data, isSpaceChar c = true) → extract_resume_skills text = []) := by
  refine ⟨extract_resume_skills_sorted text, extract_resume_skills_nodup text, ?_,
    fun h => extract_all_space h⟩
  intro sk hsk
  exact (mem_extract_resume_skills.mp hsk).1

/-- Witness for C5: the empty input yields the empty list. -/
theorem c5_witness : extract_resume_skills "" = [] :=
  (c5_extract_invariants "").2.2.2 (by decide)

/-! ### C10 — comparing the two deployed extractors -/

lemma word_not_space {c : Char} (h : isWordChar c = true) : isSpaceChar c = false := by
  cases hs : isSpaceChar c
  · rfl
  · rw [space_not_word hs] at h
    exact absurd h (by simp)

lemma splitAux_no_space :
    ∀ (l acc : List Char), (∀ c ∈ l, isSpaceChar c = false) → (acc ≠ [] ∨ l ≠ []) →
      splitAux acc l = [acc.reverse ++ l] := by
  intro l
  induction l with
  | nil =>
    intro acc _ hne
    rcases hne with h | h
    · cases acc with
      | nil => exact absurd rfl h
      | cons a as => simp [splitAux]
    · exact absurd rfl h
  | cons c cs ih =>
    intro acc hl _
    have hc : isSpaceChar c = false := hl c (by simp)
    simp only [splitAux, hc, Bool.false_eq_true, if_false]
    rw [ih (c :: acc) (fun d hd => hl d (List.mem_cons_of_mem _ hd)) (Or.inl (by simp))]
    simp

lemma splitToks_single {t : List Char} (hne : t ≠ [])
    (hsp : ∀ c ∈ t, isSpaceChar c = false) : splitToks t = [t] := by
  rw [splitToks, splitAux_no_space t [] hsp (Or.inr hne)]
  simp

lemma matchHere_single_eq {pat : List Char} (hne : pat ≠ [])
    (hw : ∀ c ∈ pat, isWordChar c = true) (prev : Option Char) (s : List Char) :
    matchHere [pat] prev s = lookMatchAt pat prev s := by
  cases hp : pat.isPrefixOf s with
  | false =>
    have hnone : matchToks [pat] s = none := by simp [matchToks, hp]
    rw [matchHere, hnone, lookMatchAt, hp]
    simp
  | true =>
    obtain ⟨u, rfl⟩ := isPrefixOf_eq_append hp
    have hsome : matchToks [pat] (pat ++ u) = some u := by
      simp [matchToks, hp]
    rw [matchHere_eval hsome, lookMatchAt, hp, List.drop_left]
    cases pat with
    | nil => exact absurd rfl hne
    | cons p0 ps =>
      have hw0 : isWordChar p0 = true := hw p0 (by simp)
      obtain ⟨lc, hlc⟩ : ∃ lc, (p0 :: ps).getLast? = some lc := by
        cases hgl : (p0 :: ps).getLast? with
        | none => exact absurd (List.getLast?_eq_none_iff.mp hgl) (by simp)
        | some y => exact ⟨y, rfl⟩
      have hlcw : isWordChar lc = true := hw lc (getLast?_mem hlc)
      simp [boundaryB, wordOpt, hw0, toksLast, hlc, hlcw]

lemma searchFrom_single_eq {pat : List Char} (hne : pat ≠ [])
    (hw : ∀ c ∈ pat, isWordChar c = true) :
    ∀ (s : List Char) (prev : Option Char),
      searchFrom [pat] prev s = searchLAFrom pat prev s := by
  intro s
  induction s with
  | nil =>
    intro prev
    rw [searchFrom, searchLAFrom, matchHere_single_eq hne hw]
  | cons x xs ih =>
    intro prev
    rw [searchFrom, searchLAFrom, matchHere_single_eq hne hw, ih]

lemma reSearch_single_eq {pat : List Char} (hne : pat ≠ [])
    (hw : ∀ c ∈ pat, isWordChar c = true) (text : List Char) :
    reSearch [pat] text = searchLA pat text := by
  rw [reSearch, searchLA, searchFrom_single_eq hne hw]

/-- C10 counterexample: the two extractors disagree on `"i know c++"` — the
`\b`-anchored pattern of `enhanced_extractor.py` needs a word character after
`c++`, while the lookaround pattern of `lambda_handler.py` does not. -/
theorem c10_counterexample :
    extract_resume_skills "i know c++" = ["c"] ∧
      extract_skills_from_text "i know c++" = ["c", "c++"] :=
  ⟨by decide, by decide⟩

set_option maxRecDepth 4096 in
/-- C10 (amended): the two extractors agree on every taxonomy skill that is a
single token of word characters (they differ on entries with non-word
characters such as `c++`/`c#`, and on multi-token phrases, where `\s+` accepts
whitespace runs the literal lookaround pattern does not). -/
theorem c10_extractors_agree_on_word_skills (text skill : String)
    (h : skill ∈ SKILL_TAXONOMY) (hw : ∀ c ∈ skill.data, isWordChar c = true) :
    skill ∈ extract_resume_skills text ↔ skill ∈ extract_skills_from_text text := by
  have hne : skill.data ≠ [] := by
    have hall : ∀ sk ∈ SKILL_TAXONOMY, sk.data ≠ [] := by decide
    exact hall skill h
  have hsp : ∀ c ∈ skill.data, isSpaceChar c = false := fun c hc => word_not_space (hw c hc)
  rw [mem_extract_resume_skills, mem_extract_skills_from_text,
    splitToks_single hne hsp, reSearch_single_eq hne hw]

/-- Witness for C10 (amended) at the skill `python`. -/
theorem c10_witness :
    ("python" ∈ SKILL_TAXONOMY) ∧ (∀ c ∈ "python".data, isWordChar c = true) ∧
      ("python" ∈ extract_resume_skills "Senior Python engineer" ↔
        "python" ∈ extract_skills_from_text "Senior Python engineer") :=
  ⟨by decide, by decide,
    c10_extractors_agree_on_word_skills "Senior Python engineer" "python"
      (by decide) (by decide)⟩

/-! ### C4 — machinery for alias substitution -/

lemma aliasMatchAt_true_iff {a : List Char} {prev : Option Char} {s : List Char} :
    aliasMatchAt a prev s = true ↔
      a ≠ [] ∧ wordOpt prev = false ∧ a.isPrefixOf s = true ∧
        wordOpt (List.drop a.length s).head? = false := by
  simp [aliasMatchAt, Bool.and_eq_true, Bool.not_eq_true', List.isEmpty_iff, and_assoc]

lemma aliasMatchAt_nil {a : List Char} {prev : Option Char} :
    aliasMatchAt a prev [] = false := by
  cases a with
  | nil => rfl
  | cons h t => simp [aliasMatchAt, List.isPrefixOf]

lemma aliasMatchAt_ne_nil {a : List Char} {prev : Option Char} {s : List Char}
    (h : aliasMatchAt a prev s = true) : a ≠ [] :=
  (aliasMatchAt_true_iff.mp h).1

lemma substF_congr {a c : List Char} :
    ∀ (n m : Nat) (prev : Option Char) (s : List Char),
      s.length ≤ n → s.length ≤ m → substF a c n prev s = substF a c m prev s := by
  intro n
  induction n with
  | zero =>
    intro m prev s hn _
    have hs : s = [] := List.length_eq_zero.mp (Nat.le_zero.mp hn)
    subst hs
    cases m with
    | zero => rfl
    | succ m2 => rfl
  | succ n2 ih =>
    intro m prev s hn hm
    cases s with
    | nil =>
      cases m with
      | zero => rfl
      | succ m2 => rfl
    | cons x xs =>
      cases m with
      | zero => simp at hm
      | succ m2 =>
        simp only [substF]
        by_cases hmatch : aliasMatchAt a prev (x :: xs) = true
        · rw [if_pos hmatch, if_pos hmatch]
          have ha : a ≠ [] := aliasMatchAt_ne_nil hmatch
          have hlen : (List.drop a.length (x :: xs)).length ≤ n2 := by
            rw [List.length_drop]
            have : 1 ≤ a.length := by
              cases a with
              | nil => exact absurd rfl ha
              | cons y ys => simp
            simp only [List.length_cons] at hn ⊢
            omega
          have hlen2 : (List.drop a.length (x :: xs)).length ≤ m2 := by
            rw [List.length_drop]
            have : 1 ≤ a.length := by
              cases a with
              | nil => exact absurd rfl ha
              | cons y ys => simp
            simp only [List.length_cons] at hm ⊢
            omega
          rw [ih m2 (pushLast a prev) _ hlen hlen2]
        · rw [if_neg hmatch, if_neg hmatch]
          have h1 : xs.length ≤ n2 := by simp only [List.length_cons] at hn; omega
          have h2 : xs.length ≤ m2 := by simp only [List.length_cons] at hm; omega
          rw [ih m2 (some x) xs h1 h2]

lemma substGo_eq (a c : List Char) (prev : Option Char) (s : List Char) :
    substGo a c prev s =
      if aliasMatchAt a prev s = true then
        c ++ substGo a c (pushLast a prev) (List.drop a.length s)
      else
        match s with
        | [] => []
        | x :: xs => x :: substGo a c (some x) xs := by
  cases s with
  | nil =>
    rw [if_neg (by simp [aliasMatchAt_nil])]
    rfl
  | cons x xs =>
    show substF a c (xs.length + 1) prev (x :: xs) = _
    simp only [substF]
    by_cases hmatch : aliasMatchAt a prev (x :: xs) = true
    · rw [if_pos hmatch, if_pos hmatch]
      have ha : a ≠ [] := aliasMatchAt_ne_nil hmatch
      have h1 : 1 ≤ a.length := by
        cases a with
        | nil => exact absurd rfl ha
        | cons y ys => simp
      congr 1
      rw [substGo]
      apply substF_congr
      · rw [List.length_drop]
        simp only [List.length_cons]
        omega
      · exact le_rfl
    · rw [if_neg hmatch, if_neg hmatch]
      rfl

lemma substGo_head_of_word_prev {a c : List Char} {prev : Option Char}
    (hp : wordOpt prev = true) (V : List Char) :
    (substGo a c prev V).head? = V.head? := by
  rw [substGo_eq]
  have hm : aliasMatchAt a prev V = false := by
    cases hma : aliasMatchAt a prev V with
    | false => rfl
    | true =>
      have := (aliasMatchAt_true_iff.mp hma).2.1
      rw [hp] at this
      exact absurd this (by simp)
  rw [if_neg (by simp [hm])]
  cases V with
  | nil => rfl
  | cons x xs => rfl

lemma lastO_of_ne_nil {prev : Option Char} {L : List Char} (h : L ≠ []) :
    lastO prev L = L.getLast? := by
  rw [lastO]
  cases hg : L.getLast? with
  | none => exact absurd (List.getLast?_eq_none_iff.mp hg) h
  | some y => rfl

lemma pushLast_eq_lastO (a : List Char) (prev : Option Char) :
    pushLast a prev = lastO prev a := rfl

lemma ne_nil_of_lastO_wordOpt {prev2 : Option Char} {L : List Char} {o : Option Char}
    (h : lastO prev2 L = o) (hw1 : wordOpt prev2 = true) (hw2 : wordOpt o = false) :
    L ≠ [] := by
  intro hL
  subst hL
  rw [show lastO prev2 [] = prev2 from rfl] at h
  rw [← h, hw1] at hw2
  exact absurd hw2 (by simp)

lemma append_eq_append_split {U X a u : List Char} (h : U ++ X = a ++ u)
    (hlen : a.length ≤ U.length) : ∃ U4, U = a ++ U4 := by
  induction a generalizing U with
  | nil => exact ⟨U, rfl⟩
  | cons b a2 ih =>
    cases U with
    | nil => simp at hlen
    | cons y U5 =>
      simp only [List.cons_append, List.cons.injEq] at h
      obtain ⟨rfl, h2⟩ := h
      obtain ⟨U4, rfl⟩ := ih h2 (by simpa using hlen)
      exact ⟨U4, rfl⟩

lemma isPrefixOf_append_shorter {p X Y : List Char}
    (h : p.isPrefixOf (X ++ Y) = true) (hl : p.length ≤ X.length) :
    p.isPrefixOf X = true := by
  induction p generalizing X with
  | nil => simp [List.isPrefixOf]
  | cons q p2 ih =>
    cases X with
    | nil => simp at hl
    | cons x X2 =>
      simp only [List.cons_append, List.isPrefixOf, Bool.and_eq_true, beq_iff_eq] at h ⊢
      exact ⟨h.1, ih h.2 (by simpa using hl)⟩

lemma isSuffixOf_append (w1 w2 : List Char) : w2.isSuffixOf (w1 ++ w2) = true := by
  rw [List.isSuffixOf, List.reverse_append]
  exact isPrefixOf_append _ _

/-! ### C4 — one substitution pass rewrites a standalone alias occurrence -/

lemma substGo_match {a c : List Char} {prev : Option Char} {s : List Char}
    (hm : aliasMatchAt a prev s = true) :
    substGo a c prev s = c ++ substGo a c (pushLast a prev) (List.drop a.length s) := by
  rw [substGo_eq, if_pos hm]

lemma substGo_cons_no_match {a c : List Char} {prev : Option Char} {x : Char}
    {xs : List Char} (hm : ¬ aliasMatchAt a prev (x :: xs) = true) :
    substGo a c prev (x :: xs) = x :: substGo a c (some x) xs := by
  rw [substGo_eq, if_neg hm]

lemma wordOpt_pushLast_of_all_word {a : List Char} {prev : Option Char} (ha : a ≠ [])
    (haw : ∀ ch ∈ a, isWordChar ch = true) : wordOpt (pushLast a prev) = true := by
  obtain ⟨lc, hlc⟩ : ∃ lc, a.getLast? = some lc := by
    cases hg : a.getLast? with
    | none => exact absurd (List.getLast?_eq_none_iff.mp hg) ha
    | some y => exact ⟨y, rfl⟩
  rw [pushLast_eq_lastO, lastO_of_ne_nil ha, hlc]
  exact haw lc (getLast?_mem hlc)

lemma subst_produce_base {a c : List Char} (ha : a ≠ [])
    (haw : ∀ ch ∈ a, isWordChar ch = true)
    (V : List Char) (prev : Option Char) (hprev : wordOpt prev = false)
    (hV : wordOpt V.head? = false) :
    ∃ V2, substGo a c prev (a ++ V) = c ++ V2 ∧ wordOpt V2.head? = false := by
  have hmatch : aliasMatchAt a prev (a ++ V) = true := by
    rw [aliasMatchAt_true_iff]
    refine ⟨ha, hprev, isPrefixOf_append a V, ?_⟩
    rw [List.drop_left]
    exact hV
  rw [substGo_match hmatch, List.drop_left]
  refine ⟨substGo a c (pushLast a prev) V, rfl, ?_⟩
  rw [substGo_head_of_word_prev (wordOpt_pushLast_of_all_word ha haw)]
  exact hV

lemma subst_produce {a c : List Char} (ha : a ≠ [])
    (haw : ∀ ch ∈ a, isWordChar ch = true) :
    ∀ (n : Nat) (U : List Char), U.length ≤ n →
      ∀ (V : List Char) (prev : Option Char),
        wordOpt (lastO prev U) = false → wordOpt V.head? = false →
        ∃ U2 V2, substGo a c prev ((U ++ a) ++ V) = (U2 ++ c) ++ V2 ∧
          lastO prev U2 = lastO prev U ∧ wordOpt V2.head? = false := by
  intro n
  induction n with
  | zero =>
    intro U hU V prev hprev hV
    have hUnil : U = [] := List.length_eq_zero.mp (Nat.le_zero.mp hU)
    subst hUnil
    obtain ⟨V2, heq, hV2⟩ := subst_produce_base ha haw V prev hprev hV
    exact ⟨[], V2, heq, rfl, hV2⟩
  | succ n2 ih =>
    intro U hU V prev hprev hV
    cases U with
    | nil =>
      obtain ⟨V2, heq, hV2⟩ := subst_produce_base ha haw V prev hprev hV
      exact ⟨[], V2, heq, rfl, hV2⟩
    | cons x U3 =>
      by_cases hm : aliasMatchAt a prev (((x :: U3) ++ a) ++ V) = true
      · obtain ⟨-, hpr, hpref, hlook⟩ := aliasMatchAt_true_iff.mp hm
        by_cases hlen : a.length ≤ U3.length
        · -- the match lies strictly inside `U`, not touching its last character
          obtain ⟨u, hu⟩ := isPrefixOf_eq_append hpref
          have hu2 : (x :: U3) ++ (a ++ V) = a ++ u := by
            rw [← hu]
            simp [List.append_assoc]
          obtain ⟨U4, hU4⟩ := append_eq_append_split hu2
            (le_trans hlen (by simp only [List.length_cons]; omega))
          have hU4ne : U4 ≠ [] := by
            intro h0
            rw [h0, List.append_nil] at hU4
            have hlength := congrArg List.length hU4
            simp only [List.length_cons] at hlength
            omega
          have hdrop : List.drop a.length (((x :: U3) ++ a) ++ V) = (U4 ++ a) ++ V := by
            rw [show ((x :: U3) ++ a) ++ V = a ++ ((U4 ++ a) ++ V) from by
              rw [hU4]; simp [List.append_assoc]]
            exact List.drop_left a _
          have hUlast : (x :: U3).getLast? = U4.getLast? := by
            rw [hU4, List.getLast?_append_of_ne_nil _ hU4ne]
          have hprev2 : wordOpt (lastO (pushLast a prev) U4) = false := by
            have hprev3 := hprev
            rw [lastO_of_ne_nil (List.cons_ne_nil x U3)] at hprev3
            rw [lastO_of_ne_nil hU4ne, ← hUlast]
            exact hprev3
          have hlen4 : U4.length ≤ n2 := by
            have hlength := congrArg List.length hU4
            simp only [List.length_cons, List.length_append] at hlength
            simp only [List.length_cons] at hU
            have hone : 1 ≤ a.length := by
              cases a with
              | nil => exact absurd rfl ha
              | cons y ys => simp
            omega
          obtain ⟨U5, V2, heq, hlast, hV2⟩ := ih U4 hlen4 V (pushLast a prev) hprev2 hV
          have hpw : wordOpt (pushLast a prev) = true := wordOpt_pushLast_of_all_word ha haw
          have hU5ne : U5 ≠ [] := ne_nil_of_lastO_wordOpt hlast hpw hprev2
          refine ⟨c ++ U5, V2, ?_, ?_, hV2⟩
          · rw [substGo_match hm, hdrop, heq]
            simp [List.append_assoc]
          · have hcne : c ++ U5 ≠ [] := fun hx => hU5ne (List.append_eq_nil.mp hx).2
            rw [lastO_of_ne_nil hcne, List.getLast?_append_of_ne_nil _ hU5ne,
              lastO_of_ne_nil (List.cons_ne_nil x U3), hUlast]
            rw [← @lastO_of_ne_nil (pushLast a prev) U5 hU5ne, hlast,
              lastO_of_ne_nil hU4ne]
        · -- the match would cover the last character of `U`: impossible,
          -- that character is non-word while the alias is all word characters
          exfalso
          push_neg at hlen
          have hpref2 : a.isPrefixOf ((x :: U3) ++ (a ++ V)) = true := by
            rw [show (x :: U3) ++ (a ++ V) = ((x :: U3) ++ a) ++ V from by
              simp [List.append_assoc]]
            exact hpref
          obtain ⟨a2, ha2, -⟩ := isPrefixOf_split hpref2
            (by simp only [List.length_cons]; omega)
          obtain ⟨lc, hlc⟩ : ∃ lc, (x :: U3).getLast? = some lc := by
            cases hg : (x :: U3).getLast? with
            | none => exact absurd (List.getLast?_eq_none_iff.mp hg) (by simp)
            | some y => exact ⟨y, rfl⟩
          have hmem : lc ∈ a := by
            rw [ha2]
            exact List.mem_append_left _ (getLast?_mem hlc)
          have hword := haw lc hmem
          have hnl := hprev
          rw [lastO_of_ne_nil (List.cons_ne_nil x U3), hlc] at hnl
          rw [show wordOpt (some lc) = isWordChar lc from rfl, hword] at hnl
          exact absurd hnl (by simp)
      · -- no match here: copy the head character and recurse
        have hshape : ((x :: U3) ++ a) ++ V = x :: ((U3 ++ a) ++ V) := by simp
        rw [hshape] at hm ⊢
        have hprev3 : wordOpt (lastO (some x) U3) = false := by
          rw [← lastO_cons prev x U3]
          exact hprev
        obtain ⟨U5, V2, heq, hlast, hV2⟩ := ih U3
          (by simp only [List.length_cons] at hU; omega) V (some x) hprev3 hV
        refine ⟨x :: U5, V2, ?_, ?_, hV2⟩
        · rw [substGo_cons_no_match hm, heq]
          simp
        · rw [lastO_cons prev x U5, hlast, ← lastO_cons prev x U3]

/-! ### C4 — eliminating the side conditions -/

lemma noIntOcc_elim {a : List Char} (ha : a ≠ []) :
    ∀ (s1 : List Char) (prevW : Option Char) (s2 : List Char),
      noIntOcc a prevW (s1 ++ (a ++ s2)) = true →
      wordOpt (lastO prevW s1) = true ∨ wordOpt s2.head? = true := by
  intro s1
  induction s1 with
  | nil =>
    intro prevW s2 h
    cases a with
    | nil => exact absurd rfl ha
    | cons b a2 =>
      rw [show ([] : List Char) ++ ((b :: a2) ++ s2) = b :: (a2 ++ s2) from rfl] at h
      simp only [noIntOcc] at h
      obtain ⟨h1, -⟩ := Bool.and_eq_true_iff.mp h
      rw [show b :: (a2 ++ s2) = (b :: a2) ++ s2 from rfl, isPrefixOf_append,
        List.drop_left] at h1
      simp only [Bool.not_true, Bool.false_or, Bool.or_eq_true] at h1
      exact h1
  | cons y s1x ih =>
    intro prevW s2 h
    rw [show (y :: s1x) ++ (a ++ s2) = y :: (s1x ++ (a ++ s2)) from rfl] at h
    simp only [noIntOcc] at h
    obtain ⟨-, h2⟩ := Bool.and_eq_true_iff.mp h
    rw [lastO_cons]
    exact ih (some y) s2 h2

lemma noLeftSpan_elim {w : List Char} :
    ∀ (a : List Char), noLeftSpan w a = true →
      ∀ (a1 : List Char) (ch : Char) (a2 : List Char),
        a = a1 ++ ch :: a2 → isWordChar ch = false → a2 ≠ [] →
        a2.isPrefixOf w = false := by
  intro a
  induction a with
  | nil =>
    intro _ a1 ch a2 heq
    exact absurd heq (by cases a1 <;> simp)
  | cons x as ih =>
    intro hno a1 ch a2 heq hch ha2
    simp only [noLeftSpan] at hno
    obtain ⟨h1, h2⟩ := Bool.and_eq_true_iff.mp hno
    cases a1 with
    | nil =>
      simp only [List.nil_append, List.cons.injEq] at heq
      obtain ⟨rfl, rfl⟩ := heq
      rw [hch] at h1
      have hae : as.isEmpty = false := by
        cases as with
        | nil => exact absurd rfl ha2
        | cons q qs => rfl
      rw [hae] at h1
      simp only [Bool.false_or, Bool.not_eq_true'] at h1
      exact h1
    | cons z a1x =>
      simp only [List.cons_append, List.cons.injEq] at heq
      obtain ⟨-, heq2⟩ := heq
      exact ih h2 a1x ch a2 heq2 hch ha2

lemma noRightSpanAux_elim {w : List Char} :
    ∀ (rest acc : List Char), noRightSpanAux w acc rest = true →
      ∀ (r1 : List Char) (ch : Char) (a2 : List Char),
        rest = r1 ++ ch :: a2 → isWordChar ch = false →
        List.isSuffixOf (acc ++ r1) w = false := by
  intro rest
  induction rest with
  | nil =>
    intro acc _ r1 ch a2 heq
    exact absurd heq (by cases r1 <;> simp)
  | cons x restx ih =>
    intro acc hno r1 ch a2 heq hch
    simp only [noRightSpanAux] at hno
    obtain ⟨h1, h2⟩ := Bool.and_eq_true_iff.mp hno
    cases r1 with
    | nil =>
      simp only [List.nil_append, List.cons.injEq] at heq
      obtain ⟨rfl, -⟩ := heq
      rw [hch] at h1
      rw [List.append_nil]
      simp only [Bool.false_or, Bool.not_eq_true'] at h1
      exact h1
    | cons z r1x =>
      simp only [List.cons_append, List.cons.injEq] at heq
      obtain ⟨rfl, heq2⟩ := heq
      have hres := ih (acc ++ [x]) h2 r1x ch a2 heq2 hch
      rw [List.append_assoc] at hres
      exact hres

lemma noRightSpan_elim {w : List Char} {a : List Char} (hno : noRightSpan w a = true) :
    ∀ (a1 : List Char) (ch : Char) (a2 : List Char),
      a = a1 ++ ch :: a2 → a1 ≠ [] → isWordChar ch = false →
      List.isSuffixOf a1 w = false := by
  intro a1 ch a2 heq ha1 hch
  cases a1 with
  | nil => exact absurd rfl ha1
  | cons a1h a1t =>
    cases a with
    | nil => exact absurd heq (by simp)
    | cons x as =>
      simp only [noRightSpan] at hno
      simp only [List.cons_append, List.cons.injEq] at heq
      obtain ⟨rfl, heq2⟩ := heq
      exact noRightSpanAux_elim as [x] hno a1t ch a2 heq2 hch

/-! ### C4 — one substitution pass leaves a protected phrase intact -/

lemma exists_concat_of_ne_nil :
    ∀ {L : List Char}, L ≠ [] → ∃ L1 lc, L = L1 ++ [lc] ∧ L.getLast? = some lc := by
  intro L
  induction L with
  | nil => intro h; exact absurd rfl h
  | cons x t ih =>
    intro _
    cases t with
    | nil => exact ⟨[], x, rfl, rfl⟩
    | cons y t2 =>
      obtain ⟨L1, lc, heq, hlast⟩ := ih (by simp)
      refine ⟨x :: L1, lc, by rw [List.cons_append, ← heq], ?_⟩
      rw [List.getLast?_cons_cons, hlast]

lemma subst_scan_w {a c w : List Char} (hane : a ≠ [])
    (hint : noIntOcc a none w = true)
    (hrsp : noRightSpan w a = true) :
    ∀ (w2 w1 V : List Char) (prev0 : Option Char),
      w = w1 ++ w2 → w2 ≠ [] → wordOpt prev0 = false → wordOpt V.head? = false →
      substGo a c (lastO prev0 w1) (w2 ++ V) =
        w2 ++ substGo a c (lastO prev0 w) V := by
  intro w2
  induction w2 with
  | nil =>
    intro w1 V prev0 _ hne
    exact absurd rfl hne
  | cons ch w2x ih =>
    intro w1 V prev0 hw hne hprev0 hV
    have hnm : ¬ aliasMatchAt a (lastO prev0 w1) ((ch :: w2x) ++ V) = true := by
      intro hma
      obtain ⟨-, hpr, hpref, hlook⟩ := aliasMatchAt_true_iff.mp hma
      by_cases hl : a.length ≤ (ch :: w2x).length
      · -- a placement inside the phrase: excluded by `noIntOcc`
        obtain ⟨u, hu⟩ := isPrefixOf_eq_append hpref
        obtain ⟨s2x, hs2⟩ := append_eq_append_split hu hl
        have hw2 : w = w1 ++ (a ++ s2x) := by rw [hw, hs2]
        have helim := noIntOcc_elim hane w1 none s2x (by rw [← hw2]; exact hint)
        rcases helim with hL | hR
        · cases w1 with
          | nil =>
            rw [show lastO none ([] : List Char) = none from rfl] at hL
            simp [wordOpt] at hL
          | cons q qs =>
            rw [lastO_none] at hL
            rw [lastO_of_ne_nil (List.cons_ne_nil q qs)] at hpr
            rw [hpr] at hL
            exact absurd hL (by simp)
        · have hdrop : List.drop a.length ((ch :: w2x) ++ V) = s2x ++ V := by
            rw [show (ch :: w2x) ++ V = a ++ (s2x ++ V) from by
              rw [hs2]; simp [List.append_assoc]]
            exact List.drop_left a _
          rw [hdrop] at hlook
          cases s2x with
          | nil => simp [wordOpt] at hR
          | cons r rs =>
            rw [show ((r :: rs) ++ V).head? = some r from rfl] at hlook
            rw [show (r :: rs).head? = some r from rfl] at hR
            rw [hlook] at hR
            exact absurd hR (by simp)
      · -- a placement starting inside the phrase and leaving it: `noRightSpan`
        push_neg at hl
        obtain ⟨a2, ha2, ha2p⟩ := isPrefixOf_split hpref (le_of_lt hl)
        have ha2ne : a2 ≠ [] := by
          intro h0
          rw [h0, List.append_nil] at ha2
          have hlen2 := congrArg List.length ha2
          omega
        cases a2 with
        | nil => exact absurd rfl ha2ne
        | cons ch2 a2x =>
          obtain ⟨v2, hv2⟩ := isPrefixOf_eq_append ha2p
          have hch2 : isWordChar ch2 = false := by
            rw [hv2] at hV
            rw [show (((ch2 :: a2x) ++ v2)).head? = some ch2 from rfl] at hV
            exact hV
          have hsuf := noRightSpan_elim hrsp (ch :: w2x) ch2 a2x ha2 (by simp) hch2
          have htrue : List.isSuffixOf (ch :: w2x) w = true := by
            rw [hw]
            exact isSuffixOf_append w1 (ch :: w2x)
          rw [htrue] at hsuf
          exact absurd hsuf (by simp)
    have hshape : (ch :: w2x) ++ V = ch :: (w2x ++ V) := rfl
    rw [hshape] at hnm
    rw [hshape, substGo_cons_no_match hnm]
    have hch : some ch = lastO prev0 (w1 ++ [ch]) := by
      rw [lastO_of_ne_nil (by simp), List.getLast?_concat]
    cases w2x with
    | nil =>
      rw [show w = w1 ++ [ch] from hw, ← hch]
      rfl
    | cons d w2y =>
      have hw2 : w = (w1 ++ [ch]) ++ (d :: w2y) := by rw [hw]; simp
      have hih := ih (w1 ++ [ch]) V prev0 hw2 (by simp) hprev0 hV
      rw [← hch] at hih
      rw [hih]
      rfl

lemma subst_preserve {a c w : List Char}
    (hane : a ≠ []) (hawL : wordOpt a.getLast? = true)
    (hwne : w ≠ []) (hw0 : wordOpt w.head? = true) (hwL : wordOpt w.getLast? = true)
    (hlen : a.length ≤ w.length)
    (hint : noIntOcc a none w = true)
    (hlsp : noLeftSpan w a = true)
    (hrsp : noRightSpan w a = true) :
    ∀ (n : Nat) (U : List Char), U.length ≤ n →
      ∀ (V : List Char) (prev : Option Char),
        wordOpt (lastO prev U) = false → wordOpt V.head? = false →
        ∃ U2 V2, substGo a c prev ((U ++ w) ++ V) = (U2 ++ w) ++ V2 ∧
          lastO prev U2 = lastO prev U ∧ wordOpt V2.head? = false := by
  have base : ∀ (V : List Char) (prev : Option Char),
      wordOpt prev = false → wordOpt V.head? = false →
      ∃ U2 V2, substGo a c prev ((([] : List Char) ++ w) ++ V) = (U2 ++ w) ++ V2 ∧
        lastO prev U2 = lastO prev ([] : List Char) ∧ wordOpt V2.head? = false := by
    intro V prev hprev hV
    have hscan := @subst_scan_w a c w hane hint hrsp w [] V prev rfl hwne hprev hV
    refine ⟨[], substGo a c (lastO prev w) V, hscan, rfl, ?_⟩
    rw [substGo_head_of_word_prev]
    · exact hV
    · rw [lastO_of_ne_nil hwne]
      exact hwL
  intro n
  induction n with
  | zero =>
    intro U hU V prev hprev hV
    have hUnil : U = [] := List.length_eq_zero.mp (Nat.le_zero.mp hU)
    subst hUnil
    exact base V prev hprev hV
  | succ n2 ih =>
    intro U hU V prev hprev hV
    cases U with
    | nil => exact base V prev hprev hV
    | cons x U3 =>
      by_cases hm : aliasMatchAt a prev (((x :: U3) ++ w) ++ V) = true
      · obtain ⟨-, hpr, hpref, hlook⟩ := aliasMatchAt_true_iff.mp hm
        by_cases hl : a.length ≤ U3.length
        · -- the match lies strictly inside `U`
          obtain ⟨u, hu⟩ := isPrefixOf_eq_append hpref
          have hu2 : (x :: U3) ++ (w ++ V) = a ++ u := by
            rw [← hu]
            simp [List.append_assoc]
          obtain ⟨U4, hU4⟩ := append_eq_append_split hu2
            (le_trans hl (by simp only [List.length_cons]; omega))
          have hU4ne : U4 ≠ [] := by
            intro h0
            rw [h0, List.append_nil] at hU4
            have hlength := congrArg List.length hU4
            simp only [List.length_cons] at hlength
            omega
          have hdrop : List.drop a.length (((x :: U3) ++ w) ++ V) = (U4 ++ w) ++ V := by
            rw [show ((x :: U3) ++ w) ++ V = a ++ ((U4 ++ w) ++ V) from by
              rw [hU4]; simp [List.append_assoc]]
            exact List.drop_left a _
          have hUlast : (x :: U3).getLast? = U4.getLast? := by
            rw [hU4, List.getLast?_append_of_ne_nil _ hU4ne]
          have hprev2 : wordOpt (lastO (pushLast a prev) U4) = false := by
            have hprev3 := hprev
            rw [lastO_of_ne_nil (List.cons_ne_nil x U3)] at hprev3
            rw [lastO_of_ne_nil hU4ne, ← hUlast]
            exact hprev3
          have hlen4 : U4.length ≤ n2 := by
            have hlength := congrArg List.length hU4
            simp only [List.length_cons, List.length_append] at hlength
            simp only [List.length_cons] at hU
            have hone : 1 ≤ a.length := by
              cases a with
              | nil => exact absurd rfl hane
              | cons y ys => simp
            omega
          obtain ⟨U5, V2, heq, hlast, hV2⟩ := ih U4 hlen4 V (pushLast a prev) hprev2 hV
          have hpw : wordOpt (pushLast a prev) = true := by
            rw [pushLast_eq_lastO, lastO_of_ne_nil hane]
            exact hawL
          have hU5ne : U5 ≠ [] := ne_nil_of_lastO_wordOpt hlast hpw hprev2
          refine ⟨c ++ U5, V2, ?_, ?_, hV2⟩
          · rw [substGo_match hm, hdrop, heq]
            simp [List.append_assoc]
          · have hcne : c ++ U5 ≠ [] := fun hx => hU5ne (List.append_eq_nil.mp hx).2
            rw [lastO_of_ne_nil hcne, List.getLast?_append_of_ne_nil _ hU5ne,
              lastO_of_ne_nil (List.cons_ne_nil x U3), hUlast]
            rw [← @lastO_of_ne_nil (pushLast a prev) U5 hU5ne, hlast,
              lastO_of_ne_nil hU4ne]
        · -- the match would cover the last character of `U`
          exfalso
          push_neg at hl
          have hpref2 : a.isPrefixOf ((x :: U3) ++ (w ++ V)) = true := by
            rw [show (x :: U3) ++ (w ++ V) = ((x :: U3) ++ w) ++ V from by
              simp [List.append_assoc]]
            exact hpref
          obtain ⟨a2, ha2, ha2p⟩ := isPrefixOf_split hpref2
            (by simp only [List.length_cons]; omega)
          cases a2 with
          | nil =>
            -- then `a = U` and the lookahead sees the word head of `w`
            rw [List.append_nil] at ha2
            have hdrop : List.drop a.length (((x :: U3) ++ w) ++ V) = w ++ V := by
              rw [show ((x :: U3) ++ w) ++ V = a ++ (w ++ V) from by
                rw [ha2]; simp [List.append_assoc]]
              exact List.drop_left a _
            rw [hdrop] at hlook
            cases w with
            | nil => exact absurd rfl hwne
            | cons wh wt =>
              rw [show ((wh :: wt) ++ V).head? = some wh from rfl] at hlook
              rw [show (wh :: wt).head? = some wh from rfl] at hw0
              rw [hlook] at hw0
              exact absurd hw0 (by simp)
          | cons ach a2x =>
            -- a match covering the non-word last character of `U` and entering `w`
            obtain ⟨U1, lc, hU1, hlc⟩ := exists_concat_of_ne_nil (List.cons_ne_nil x U3)
            have hlcw : isWordChar lc = false := by
              have hprev3 := hprev
              rw [lastO_of_ne_nil (List.cons_ne_nil x U3), hlc] at hprev3
              exact hprev3
            have hsplit : a = U1 ++ lc :: (ach :: a2x) := by
              rw [ha2, hU1]
              simp
            have hnpre := noLeftSpan_elim a hlsp U1 lc (ach :: a2x) hsplit hlcw (by simp)
            have hlen2 : (ach :: a2x).length ≤ w.length := by
              have h1 := congrArg List.length ha2
              simp only [List.length_append, List.length_cons] at h1
              simp only [List.length_cons]
              omega
            have hpw : (ach :: a2x).isPrefixOf w = true :=
              isPrefixOf_append_shorter ha2p hlen2
            rw [hpw] at hnpre
            exact absurd hnpre (by simp)
      · -- no match here: copy the head character and recurse
        have hshape : ((x :: U3) ++ w) ++ V = x :: ((U3 ++ w) ++ V) := by simp
        rw [hshape] at hm ⊢
        have hprev3 : wordOpt (lastO (some x) U3) = false := by
          rw [← lastO_cons prev x U3]
          exact hprev
        obtain ⟨U5, V2, heq, hlast, hV2⟩ := ih U3
          (by simp only [List.length_cons] at hU; omega) V (some x) hprev3 hV
        refine ⟨x :: U5, V2, ?_, ?_, hV2⟩
        · rw [substGo_cons_no_match hm, heq]
          simp
        · rw [lastO_cons prev x U5, hlast, ← lastO_cons prev x U3]

/-! ### C4 — wrappers and the alias chain -/

lemma substAlias_produce (a c : List Char) (ha : a ≠ [])
    (haw : ∀ ch ∈ a, isWordChar ch = true) {U V : List Char}
    (hU : wordOpt U.getLast? = false) (hV : wordOpt V.head? = false) :
    ∃ U2 V2, substAlias a c ((U ++ a) ++ V) = (U2 ++ c) ++ V2 ∧
      wordOpt U2.getLast? = false ∧ wordOpt V2.head? = false := by
  obtain ⟨U2, V2, heq, hlast, hV2⟩ := subst_produce ha haw U.length U le_rfl V none
    (by rw [lastO_none]; exact hU) hV
  refine ⟨U2, V2, heq, ?_, hV2⟩
  rw [← lastO_none U2, hlast, lastO_none]
  exact hU

lemma substAlias_preserve (a c w : List Char)
    (hane : a ≠ []) (hawL : wordOpt a.getLast? = true)
    (hwne : w ≠ []) (hw0 : wordOpt w.head? = true) (hwL : wordOpt w.getLast? = true)
    (hlen : a.length ≤ w.length)
    (hint : noIntOcc a none w = true)
    (hlsp : noLeftSpan w a = true)
    (hrsp : noRightSpan w a = true) {U V : List Char}
    (hU : wordOpt U.getLast? = false) (hV : wordOpt V.head? = false) :
    ∃ U2 V2, substAlias a c ((U ++ w) ++ V) = (U2 ++ w) ++ V2 ∧
      wordOpt U2.getLast? = false ∧ wordOpt V2.head? = false := by
  obtain ⟨U2, V2, heq, hlast, hV2⟩ := subst_preserve hane hawL hwne hw0 hwL hlen
    hint hlsp hrsp U.length U le_rfl V none (by rw [lastO_none]; exact hU) hV
  refine ⟨U2, V2, heq, ?_, hV2⟩
  rw [← lastO_none U2, hlast, lastO_none]
  exact hU

lemma foldl_subst_preserve {w : List Char} (hwne : w ≠ [])
    (hw0 : wordOpt w.head? = true) (hwL : wordOpt w.getLast? = true) :
    ∀ (L : List (String × String)), (∀ p ∈ L, AliasSafe w p) →
      ∀ (U V : List Char), wordOpt U.getLast? = false → wordOpt V.head? = false →
      ∃ U2 V2,
        L.foldl (fun t p => substAlias p.1.data p.2.data t) ((U ++ w) ++ V) =
          (U2 ++ w) ++ V2 ∧
        wordOpt U2.getLast? = false ∧ wordOpt V2.head? = false := by
  intro L
  induction L with
  | nil =>
    intro _ U V hU hV
    exact ⟨U, V, rfl, hU, hV⟩
  | cons p ps ih =>
    intro hL U V hU hV
    obtain ⟨h1, h2, h3, h4, h5, h6, h7⟩ := hL p (by simp)
    obtain ⟨U2, V2, heq, hU2, hV2⟩ :=
      substAlias_preserve p.1.data p.2.data w h1 h3 hwne hw0 hwL h4 h5 h6 h7 hU hV
    rw [List.foldl_cons, heq]
    exact ih (fun q hq => hL q (List.mem_cons_of_mem _ hq)) U2 V2 hU2 hV2

/-! ### C4 — normalization respects non-word neighbours -/

lemma normChar_not_word {c : Char} (h : isWordChar c = false) :
    isWordChar (normChar c) = false := by
  have hlc : lowerChar c = c := by
    rw [lowerChar, if_neg ?hAZ]
    case hAZ =>
      intro hAZ
      have hup : c.isUpper = true := by
        simp only [Char.isUpper, Bool.and_eq_true, decide_eq_true_eq]
        exact ⟨hAZ.1, hAZ.2⟩
      have hw : isWordChar c = true := by
        simp [isWordChar, Char.isAlphanum, Char.isAlpha, hup]
      rw [hw] at h
      exact absurd h (by simp)
  simp only [normChar, hlc]
  by_cases h2 : c = '-'
  · subst h2
    decide
  · by_cases h3 : c = '_'
    · subst h3
      exact absurd h (by decide)
    · rw [if_neg (by simp [h2, h3])]
      exact h

lemma normalizeL_head_not_word {l : List Char} (h : wordOpt l.head? = false) :
    wordOpt (normalizeL l).head? = false := by
  cases l with
  | nil => exact h
  | cons x xs =>
    rw [show (normalizeL (x :: xs)).head? = some (normChar x) from rfl]
    rw [show (x :: xs).head? = some x from rfl] at h
    exact normChar_not_word h

lemma normalizeL_getLast_not_word {l : List Char} (h : wordOpt l.getLast? = false) :
    wordOpt (normalizeL l).getLast? = false := by
  induction l with
  | nil => exact h
  | cons x xs ih =>
    cases xs with
    | nil =>
      rw [show (normalizeL [x]).getLast? = some (normChar x) from rfl]
      rw [show ([x] : List Char).getLast? = some x from rfl] at h
      exact normChar_not_word h
    | cons y ys =>
      rw [show normalizeL (x :: y :: ys) = normChar x :: normalizeL (y :: ys) from rfl]
      have hyne : normalizeL (y :: ys) ≠ [] := by
        rw [show normalizeL (y :: ys) = normChar y :: normalizeL ys from rfl]
        simp
      rw [List.getLast?_cons_cons] at h
      cases hg : (normalizeL (y :: ys)).getLast? with
      | none => exact absurd (List.getLast?_eq_none_iff.mp hg) hyne
      | some z =>
        have := ih h
        rw [hg] at this
        cases hns : normalizeL (y :: ys) with
        | nil => exact absurd hns hyne
        | cons n0 ns =>
          rw [hns] at hg
          rw [show (normChar x :: n0 :: ns).getLast? = (n0 :: ns).getLast? from
            List.getLast?_cons_cons, hg]
          exact this

/-! ### C4 — the claim -/

set_option maxRecDepth 8192 in
/-- C4: alias substitution is word-boundary-delimited. Every text containing
`ML` as a standalone word (non-word or absent neighbours) yields
`machine learning` in the extractor output; no text ever yields the literal
`ml`; and on "I enjoy coding" the `js` alias does not fire inside `enjoy`,
so `javascript` is not extracted. -/
theorem c4_alias_word_boundaries :
    (∀ u v : List Char,
      wordOpt u.getLast? = false → wordOpt v.head? = false →
      "machine learning" ∈
        extract_resume_skills (String.mk ((u ++ ('M' :: 'L' :: [])) ++ v))) ∧
    (∀ text : String, "ml" ∉ extract_resume_skills text) ∧
    "javascript" ∉ extract_resume_skills "I enjoy coding" := by
  refine ⟨?_, ?_, by decide⟩
  · intro u v hu hv
    have hml : ("ml".data : List Char) = 'm' :: 'l' :: [] := by decide
    have hMLnorm : normalizeL ((u ++ ('M' :: 'L' :: [])) ++ v) =
        (normalizeL u ++ "ml".data) ++ normalizeL v := by
      have hM : normChar 'M' = 'm' := by decide
      have hL2 : normChar 'L' = 'l' := by decide
      rw [hml]
      simp [normalizeL, List.map_append, hM, hL2]
    have hu2 : wordOpt (normalizeL u).getLast? = false := normalizeL_getLast_not_word hu
    have hv2 : wordOpt (normalizeL v).head? = false := normalizeL_head_not_word hv
    obtain ⟨U2, V2, heq1, hU2, hV2⟩ :=
      substAlias_produce "ml".data "machine learning".data (by decide) (by decide) hu2 hv2
    have hsafe : ∀ p ∈ SKILL_ALIASES.tail, AliasSafe "machine learning".data p := by
      decide
    obtain ⟨U3, V3, heq2, hU3, hV3⟩ := foldl_subst_preserve (by decide) (by decide)
      (by decide) SKILL_ALIASES.tail hsafe U2 V2 hU2 hV2
    have hpre : preprocess ((u ++ ('M' :: 'L' :: [])) ++ v) =
        (U3 ++ "machine learning".data) ++ V3 := by
      rw [preprocess, hMLnorm, applyAliases]
      rw [show SKILL_ALIASES = ("ml", "machine learning") :: SKILL_ALIASES.tail from rfl]
      rw [List.foldl_cons]
      show List.foldl (fun t (p : String × String) => substAlias p.1.data p.2.data t)
        (substAlias "ml".data "machine learning".data
          ((normalizeL u ++ "ml".data) ++ normalizeL v))
        SKILL_ALIASES.tail = (U3 ++ "machine learning".data) ++ V3
      rw [heq1]
      exact heq2
    rw [mem_extract_resume_skills]
    refine ⟨by decide, ?_⟩
    rw [show (String.mk ((u ++ ('M' :: 'L' :: [])) ++ v)).data =
      (u ++ ('M' :: 'L' :: [])) ++ v from rfl]
    rw [hpre]
    rw [show splitToks ("machine learning".data) = ["machine".data, "learning".data]
      from by decide]
    rw [reSearch_iff_occurs (by decide) (by decide)]
    refine ⟨U3, "machine learning".data, V3, rfl, ?_, ?_, ?_⟩
    · rw [show ("machine learning".data : List Char) =
        "machine".data ++ ((' ' :: []) ++ "learning".data) from by decide]
      exact Joined.cons "machine".data (' ' :: []) ["learning".data] "learning".data
        (by simp) (by decide) (Joined.single "learning".data)
    · rw [show ("machine learning".data : List Char).head? = some 'm' from by decide]
      rw [boundaryB, hU3]
      rw [show wordOpt (some 'm') = true from by decide]
      rfl
    · rw [show ("machine learning".data : List Char).getLast? = some 'g' from by decide]
      rw [boundaryB, hV3]
      rw [show wordOpt (some 'g') = true from by decide]
      rfl
  · intro text h
    exact absurd (mem_extract_resume_skills.mp h).1 (by decide)

/-- Witness for C4 at a concrete text with standalone `ML`. -/
theorem c4_witness :
    wordOpt ("i do ".data : List Char).getLast? = false ∧
    wordOpt (" daily".data : List Char).head? = false ∧
    "machine learning" ∈ extract_resume_skills
      (String.mk (("i do ".data ++ ('M' :: 'L' :: [])) ++ " daily".data)) :=
  ⟨by decide, by decide,
    c4_alias_word_boundaries.1 "i do ".data " daily".data (by decide) (by decide)⟩
end Resume
